import Mathlib

/-!
Verification of the IMP bytecode core: the code generator (`codegen.cpp`,
`codegen.h`) and the stack virtual machine (`interp.cpp`, `interp.h`,
`program.h`, `runtime.cpp`), embedded shallowly at the byte level.

The bytecode container is a list of byte values (`List Nat`, every element
below 256 by construction).  Typed emission and reads mirror the C++
`Emit<T>` / `Program::Read<T>` pairs: `Opcode` is one byte, `unsigned` and
`uint32_t` are four little-endian bytes, `size_t` and `RuntimeFn` (a
function pointer, modelled as a numeric identity) are eight little-endian
bytes, as on the 64-bit little-endian target the code assumes.

C++ `assert` failures and out-of-bounds accesses whose behaviour the code
relies on never happening are modelled as explicit `assertFail` outcomes,
kept distinct from thrown `RuntimeError`s (`runtimeError`).
-/

namespace Imp

/-- Little-endian encoding of `v` into `w` bytes (the low `w` bytes of `v`,
as `memcpy` of a `w`-byte integer produces on a little-endian machine). -/
def encLE : Nat → Nat → List Nat
  | 0, _ => []
  | w + 1, v => (v % 256) :: encLE w (v / 256)

/-- Little-endian decoding of a byte list. -/
def decLE : List Nat → Nat
  | [] => 0
  | b :: rest => b + 256 * decLE rest

/-- The `n` bytes of `c` starting at offset `o` (reads past the end give 0;
all uses are guarded to stay in bounds, as the C++ `memcpy` calls are). -/
def bytesAt (c : List Nat) (o n : Nat) : List Nat :=
  (List.range n).map (fun k => c.getD (o + k) 0)

/-- In-place overwrite of the bytes of `c` from offset `o` with `bs`,
as `memcpy(code_.data() + loc, ...)` does (out-of-range writes are dropped;
all uses are in bounds). -/
def writeBytes (c : List Nat) (o : Nat) (bs : List Nat) : List Nat :=
  match bs with
  | [] => c
  | b :: rest => writeBytes (c.set o b) (o + 1) rest

/-- `Program::Read<T>`: read `n` bytes at `pc`; the assert
`pc + sizeof(T) <= code_.size()` guards the read. -/
def readN (c : List Nat) (pc n : Nat) : Option Nat :=
  if pc + n ≤ c.length then some (decLE (bytesAt c pc n)) else none

/-- The opcode enumeration of `program.h` (a `uint8_t` enum). -/
inductive Opcode
  | push_func
  | push_proto
  | peek
  | pop
  | call
  | add
  | ret
  | jump_false
  | jump
  | stop
deriving DecidableEq, Repr

/-- The byte value of each opcode (declaration order, from 0). -/
def Opcode.toByte : Opcode → Nat
  | .push_func => 0
  | .push_proto => 1
  | .peek => 2
  | .pop => 3
  | .call => 4
  | .add => 5
  | .ret => 6
  | .jump_false => 7
  | .jump => 8
  | .stop => 9

/-- Decoding a byte back to an opcode; bytes outside 0..9 match no case of
the interpreter's switch. -/
def byteToOp : Nat → Option Opcode
  | 0 => some .push_func
  | 1 => some .push_proto
  | 2 => some .peek
  | 3 => some .pop
  | 4 => some .call
  | 5 => some .add
  | 6 => some .ret
  | 7 => some .jump_false
  | 8 => some .jump
  | 9 => some .stop
  | _ => none

/-- `Interp::Value`: the dynamically-tagged stack value.  `RuntimeFn`
identities are numbers (indices into the runtime table); `Int` models the
`int64_t` payload. -/
inductive Value
  | proto (fn : Nat)
  | addr (a : Nat)
  | int (i : Int)
deriving DecidableEq, Repr

/-- `Value::operator bool`. -/
def Value.toBool : Value → Bool
  | .proto _ => true
  | .addr _ => true
  | .int i => i != 0

/-- Interpreter state: program counter, evaluation stack (head = top of
stack, i.e. `stack_.rbegin()`), and the standard input/output integer
channels used by the native routines. -/
structure VM where
  pc : Nat
  stack : List Value
  inp : List Int
  out : List Int
deriving DecidableEq, Repr

/-- Failure outcomes: `runtimeError` is a thrown `RuntimeError` (it
propagates to the embedding caller); `assertFail` is a failed debug
`assert` or an out-of-bounds access the code asserts against. -/
inductive VMErr
  | runtimeError (msg : String)
  | assertFail (msg : String)
deriving DecidableEq, Repr

/-- Result of one dispatch iteration of `Interp::Run`. -/
inductive StepRes
  | next (vm : VM)
  | stopped (vm : VM)
  | fault (e : VMErr) (vm : VM)
deriving DecidableEq, Repr

/-- The native runtime routines of `runtime.cpp`, keyed by identity:
0 = `PrintInt` (peek the top integer, emit it, push it again),
1 = `ReadInt` (read an integer from input and push it; on exhausted input
`std::cin >> val` stores 0). -/
def runNative (fn : Nat) (vm : VM) : StepRes :=
  if fn = 0 then
    match vm.stack with
    | .int v :: _ =>
        .next { vm with stack := .int v :: vm.stack, out := vm.out ++ [v] }
    | [] => .fault (.assertFail "stack empty") vm
    | _ :: _ => .fault (.assertFail "not an integer") vm
  else if fn = 1 then
    match vm.inp with
    | [] => .next { vm with stack := .int 0 :: vm.stack }
    | i :: rest => .next { vm with stack := .int i :: vm.stack, inp := rest }
  else .fault (.assertFail "unknown native") vm

/-- One fetch/dispatch iteration of `Interp::Run` over bytecode `c`. -/
def step (c : List Nat) (vm : VM) : StepRes :=
  match readN c vm.pc 1 with
  | none => .fault (.assertFail "read out of bounds") vm
  | some b =>
    let pc1 := vm.pc + 1
    match byteToOp b with
    | none => .next { vm with pc := pc1 }
    | some op =>
      match op with
      | .push_func =>
        match readN c pc1 8 with
        | none => .fault (.assertFail "read out of bounds") { vm with pc := pc1 }
        | some a => .next { vm with pc := pc1 + 8, stack := .addr a :: vm.stack }
      | .push_proto =>
        match readN c pc1 8 with
        | none => .fault (.assertFail "read out of bounds") { vm with pc := pc1 }
        | some f => .next { vm with pc := pc1 + 8, stack := .proto f :: vm.stack }
      | .peek =>
        match readN c pc1 4 with
        | none => .fault (.assertFail "read out of bounds") { vm with pc := pc1 }
        | some idx =>
          match vm.stack.get? idx with
          | none => .fault (.assertFail "peek out of range") { vm with pc := pc1 + 4 }
          | some v => .next { vm with pc := pc1 + 4, stack := v :: vm.stack }
      | .pop =>
        match vm.stack with
        | [] => .fault (.assertFail "stack empty") { vm with pc := pc1 }
        | _ :: rest => .next { vm with pc := pc1, stack := rest }
      | .call =>
        match vm.stack with
        | [] => .fault (.assertFail "stack empty") { vm with pc := pc1 }
        | callee :: rest =>
          match callee with
          | .proto fn => runNative fn { vm with pc := pc1, stack := rest }
          | .addr a => .next { vm with pc := a, stack := .addr pc1 :: rest }
          | .int _ =>
              .fault (.runtimeError "cannot call integer") { vm with pc := pc1, stack := rest }
      | .add =>
        match vm.stack with
        | [] => .fault (.assertFail "stack empty") { vm with pc := pc1 }
        | .int rhs :: rest1 =>
          match rest1 with
          | [] => .fault (.assertFail "stack empty") { vm with pc := pc1, stack := rest1 }
          | .int lhs :: rest2 =>
              .next { vm with pc := pc1, stack := .int (lhs + rhs) :: rest2 }
          | _ :: rest2 => .fault (.assertFail "not an integer") { vm with pc := pc1, stack := rest2 }
        | _ :: rest1 => .fault (.assertFail "not an integer") { vm with pc := pc1, stack := rest1 }
      | .ret =>
        match readN c pc1 4 with
        | none => .fault (.assertFail "read out of bounds") { vm with pc := pc1 }
        | some depth =>
          match readN c (pc1 + 4) 4 with
          | none => .fault (.assertFail "read out of bounds") { vm with pc := pc1 + 4 }
          | some nargs =>
            match vm.stack with
            | [] => .fault (.assertFail "stack empty") { vm with pc := pc1 + 8 }
            | v :: rest =>
              if depth ≤ rest.length then
                match rest.drop depth with
                | [] => .fault (.assertFail "stack empty")
                    { vm with pc := pc1 + 8, stack := rest.drop depth }
                | .addr r :: rest2 =>
                  if nargs ≤ rest2.length then
                    .next { vm with pc := r, stack := v :: rest2.drop nargs }
                  else .fault (.assertFail "stack resize underflow")
                    { vm with pc := r, stack := rest2 }
                | _ :: _ => .fault (.assertFail "not an address")
                    { vm with pc := pc1 + 8, stack := rest.drop depth }
              else .fault (.assertFail "stack resize underflow")
                { vm with pc := pc1 + 8, stack := rest }
      | .jump_false =>
        match vm.stack with
        | [] => .fault (.assertFail "stack empty") { vm with pc := pc1 }
        | cond :: rest =>
          match readN c pc1 8 with
          | none => .fault (.assertFail "read out of bounds") { vm with pc := pc1, stack := rest }
          | some a =>
              .next { vm with pc := if cond.toBool then pc1 + 8 else a, stack := rest }
      | .jump =>
        match readN c pc1 8 with
        | none => .fault (.assertFail "read out of bounds") { vm with pc := pc1 }
        | some a => .next { vm with pc := a }
      | .stop => .stopped { vm with pc := pc1 }

/-- Outcome of a bounded execution: normal termination through `stop`, or a
failure that unwinds out of the loop. -/
inductive RunRes
  | halted (vm : VM)
  | errored (e : VMErr) (vm : VM)
deriving DecidableEq, Repr

/-- `Interp::Run`, with explicit fuel (the loop itself has no bound; every
program studied here terminates within its stated fuel). -/
def run (c : List Nat) : Nat → VM → Option RunRes
  | 0, _ => none
  | fuel + 1, vm =>
    match step c vm with
    | .stopped vm' => some (.halted vm')
    | .fault e vm' => some (.errored e vm')
    | .next vm' => run c fuel vm'

/-- Iterate `step` exactly `n` times (for inspecting intermediate states);
a stop or fault state is returned as is. -/
def stepN (c : List Nat) : Nat → VM → VM
  | 0, vm => vm
  | n + 1, vm =>
    match step c vm with
    | .next vm' => stepN c n vm'
    | .stopped vm' => vm'
    | .fault _ vm' => vm'

/-!  The syntax tree of `ast.h`, restricted to the fields the code
generator reads (type annotation strings are carried but unused, as in the
C++ generator). -/

/-- Expressions: references, binary additions (the only `BinaryExpr::Kind`)
and calls. -/
inductive Expr
  | ref (name : String)
  | binary (lhs rhs : Expr)
  | call (callee : Expr) (args : List Expr)

/-- Statements: blocks, while loops, expression statements and returns. -/
inductive Stmt
  | block (body : List Stmt)
  | whileS (cond : Expr) (body : Stmt)
  | expr (e : Expr)
  | ret (e : Expr)

/-- `FuncDecl`: name, (parameter, type) list and block body. -/
structure FuncDecl where
  name : String
  args : List (String × String)
  body : List Stmt

/-- `ProtoDecl`: name, (parameter, type) list and bound primitive name. -/
structure ProtoDecl where
  name : String
  args : List (String × String)
  primitive : String

/-- A top-level construct of a module. -/
inductive TopLevel
  | func (f : FuncDecl)
  | proto (p : ProtoDecl)
  | stmt (s : Stmt)

/-- A module is its list of top-level constructs. -/
def Module := List TopLevel

/-- `kRuntimeFns` of `runtime.cpp`: primitive name to native identity. -/
def kRuntimeFns : List (String × Nat) := [("print_int", 0), ("read_int", 1)]

/-- Code-generation failures: every one is a failed `assert`. -/
inductive Fault
  | assertFail (msg : String)
deriving DecidableEq, Repr

/-- Key lookup in an association list (the observable behaviour of the
`std::map` / `std::unordered_map` `find` calls). -/
def lookupK {κ α : Type} [DecidableEq κ] : List (κ × α) → κ → Option α
  | [], _ => none
  | (k', v) :: rest, k => if k' = k then some v else lookupK rest k

/-- `emplace`: insert a binding only when the key is absent. -/
def emplaceK {κ α : Type} [DecidableEq κ] : List (κ × α) → κ → α → List (κ × α)
  | [], k, v => [(k, v)]
  | (k', v') :: rest, k, v =>
    if k' = k then (k', v') :: rest else (k', v') :: emplaceK rest k v

/-- `operator[]` read with default: the list of fixup offsets recorded for
a label (empty when the label has no entry). -/
def getOr : List (Nat × List Nat) → Nat → List Nat
  | [], _ => []
  | (k', v) :: rest, k => if k' = k then v else getOr rest k

/-- `operator[]` write: update the entry for a key, inserting it (as
`fixups_[label]` does) when absent. -/
def setK : List (Nat × List Nat) → Nat → List Nat → List (Nat × List Nat)
  | [], k, v => [(k, v)]
  | (k', v') :: rest, k, v =>
    if k' = k then (k', v) :: rest else (k', v') :: setK rest k v

/-- `args[name] = args.size()` in `LowerFuncDecl`: insert-or-assign, where
the assigned slot index is the map's size before the assignment. -/
def insertArgName (m : List (String × Nat)) (n : String) : List (String × Nat) :=
  match lookupK m n with
  | some _ => m.map (fun p => if p.1 = n then (n, m.length) else p)
  | none => m ++ [(n, m.length)]

/-- `Codegen` state.  `depth` is the `unsigned depth_` counter: it is a
`Nat` here because every subtraction in the generator is guarded (by an
assert, or by the preceding pushes in `LowerCallExpr`), so the unsigned
value never wraps.  `curArgs` is `func_ ? func_->arg_size() : 0`.  Labels
are the numeric identifiers produced by `MakeLabel`; `labelToAddress`
stores 32-bit (`unsigned`) addresses. -/
structure CG where
  code : List Nat
  depth : Nat
  nextLabel : Nat
  fixups : List (Nat × List Nat)
  labelToAddress : List (Nat × Nat)
  funcs : List (String × Nat)
  curArgs : Nat
deriving DecidableEq, Repr, Inhabited

/-- The empty generator state a fresh `Codegen` starts from. -/
def initCG : CG := ⟨[], 0, 0, [], [], [], 0⟩

/-- `Codegen::MakeLabel`: `return Label(++nextLabel_)`. -/
def MakeLabel (s : CG) : Nat × CG :=
  (s.nextLabel + 1, { s with nextLabel := s.nextLabel + 1 })

/-- `Codegen::EmitLabel`: patch the low `sizeof(unsigned)` = 4 bytes of
every recorded fixup offset with the current address, then record the
address (as `unsigned`, i.e. modulo 2^32).  The fixup entry itself is not
removed (`fixups_[label]` only default-constructs or reads it). -/
def EmitLabel (label : Nat) (s : CG) : CG :=
  let address := s.code.length
  { s with
    code := (getOr s.fixups label).foldl
      (fun c loc => writeBytes c loc (encLE 4 address)) s.code,
    fixups := setK s.fixups label (getOr s.fixups label),
    labelToAddress := emplaceK s.labelToAddress label (address % 4294967296) }

/-- `Codegen::EmitFixup`: a placed label's address is emitted directly as a
`size_t`; otherwise the emission offset is recorded and an 8-byte zero
placeholder is emitted. -/
def EmitFixup (label : Nat) (s : CG) : CG :=
  match lookupK s.labelToAddress label with
  | some a => { s with code := s.code ++ encLE 8 a }
  | none =>
    { s with
      fixups := setK s.fixups label (getOr s.fixups label ++ [s.code.length]),
      code := s.code ++ encLE 8 0 }

/-- `Codegen::EmitPop`. -/
def EmitPop (s : CG) : Except Fault CG :=
  if s.depth = 0 then .error (.assertFail "no elements on stack")
  else .ok { s with depth := s.depth - 1, code := s.code ++ [Opcode.pop.toByte] }

/-- `Codegen::EmitCall` (the `nargs` parameter is unused by the C++ code). -/
def EmitCall (nargs : Nat) (s : CG) : CG :=
  { s with code := s.code ++ [Opcode.call.toByte] }

/-- `Codegen::EmitPushFunc`. -/
def EmitPushFunc (entry : Nat) (s : CG) : CG :=
  EmitFixup entry { s with depth := s.depth + 1, code := s.code ++ [Opcode.push_func.toByte] }

/-- `Codegen::EmitPushProto`: the native identity is embedded as 8 raw
bytes (a function pointer on the 64-bit target). -/
def EmitPushProto (fn : Nat) (s : CG) : CG :=
  { s with depth := s.depth + 1,
           code := s.code ++ [Opcode.push_proto.toByte] ++ encLE 8 fn }

/-- `Codegen::EmitPeek`: the `uint32_t` index is emitted as 4 bytes. -/
def EmitPeek (idx : Nat) (s : CG) : CG :=
  { s with depth := s.depth + 1,
           code := s.code ++ [Opcode.peek.toByte] ++ encLE 4 idx }

/-- `Codegen::EmitReturn`: emits the decremented depth and the enclosing
function's parameter count as two `unsigned` operands. -/
def EmitReturn (s : CG) : Except Fault CG :=
  if s.depth = 0 then .error (.assertFail "no elements on stack")
  else .ok { s with depth := s.depth - 1,
                    code := s.code ++ [Opcode.ret.toByte]
                      ++ encLE 4 (s.depth - 1) ++ encLE 4 s.curArgs }

/-- `Codegen::EmitAdd`. -/
def EmitAdd (s : CG) : Except Fault CG :=
  if s.depth = 0 then .error (.assertFail "no elements on stack")
  else .ok { s with depth := s.depth - 1, code := s.code ++ [Opcode.add.toByte] }

/-- `Codegen::EmitJumpFalse`. -/
def EmitJumpFalse (label : Nat) (s : CG) : Except Fault CG :=
  if s.depth = 0 then .error (.assertFail "no elements on stack")
  else .ok (EmitFixup label
    { s with depth := s.depth - 1, code := s.code ++ [Opcode.jump_false.toByte] })

/-- `Codegen::EmitJump`. -/
def EmitJump (label : Nat) (s : CG) : CG :=
  EmitFixup label { s with code := s.code ++ [Opcode.jump.toByte] }

/-- A resolved name, `Codegen::Binding`. -/
inductive Binding
  | func (entry : Nat)
  | proto (fn : Nat)
  | arg (index : Nat)
deriving DecidableEq, Repr

/-- The scope chain: global, function and block scopes. -/
inductive Scope
  | global (funcs : List (String × Nat)) (protos : List (String × Nat))
  | func (args : List (String × Nat)) (parent : Scope)
  | block (parent : Scope)
deriving DecidableEq, Repr

/-- `Scope::Lookup`: functions before prototypes in the global scope, an
unbound name is an internal fault; function scopes search their arguments
then their parent; block scopes bind nothing. -/
def Scope.lookup : Scope → String → Except Fault Binding
  | .global funcs protos, n =>
    match lookupK funcs n with
    | some l => .ok (.func l)
    | none =>
      match lookupK protos n with
      | some f => .ok (.proto f)
      | none => .error (.assertFail "name not bound")
  | .func args parent, n =>
    match lookupK args n with
    | some i => .ok (.arg i)
    | none => parent.lookup n
  | .block parent, n => parent.lookup n

mutual

/-- `Codegen::LowerExpr` (with `LowerRefExpr`, `LowerBinaryExpr` and
`LowerCallExpr` inlined at their single call sites). -/
def LowerExpr (sc : Scope) (e : Expr) (s : CG) : Except Fault CG :=
  match e with
  | .ref name =>
    match sc.lookup name with
    | .error f => .error f
    | .ok (.func entry) => .ok (EmitPushFunc entry s)
    | .ok (.proto fn) => .ok (EmitPushProto fn s)
    | .ok (.arg i) => .ok (EmitPeek (s.depth + i + 1) s)
  | .binary lhs rhs => do
    let s1 ← LowerExpr sc lhs s
    let s2 ← LowerExpr sc rhs s1
    EmitAdd s2
  | .call callee args => do
    let s1 ← LowerArgsRev sc args s
    let s2 ← LowerExpr sc callee s1
    let s3 := EmitCall args.length s2
    .ok { s3 with depth := s3.depth - args.length }
termination_by structural e

/-- The argument loop of `LowerCallExpr`: `arg_rbegin()` to `arg_rend()`,
i.e. the rightmost argument is lowered first. -/
def LowerArgsRev (sc : Scope) (args : List Expr) (s : CG) : Except Fault CG :=
  match args with
  | [] => .ok s
  | a :: rest => do
    let s1 ← LowerArgsRev sc rest s
    LowerExpr sc a s1
termination_by structural args

end

mutual

/-- `Codegen::LowerStmt`.  The body of `Codegen::LowerBlockStmt` (a fresh
block scope around the statement loop, then the exit-depth assert) is
inlined in the block case; `LowerBlockStmt` below is the same code as a
standalone function. -/
def LowerStmt (sc : Scope) (st : Stmt) (s : CG) : Except Fault CG :=
  match st with
  | .block body => do
    let s1 ← LowerStmts (Scope.block sc) body s
    if s1.depth = s.depth then .ok s1
    else .error (.assertFail "mismatched block depth on exit")
  | .whileS cond body => do
    let (entry, sa) := MakeLabel s
    let (exitL, sb) := MakeLabel sa
    let sc1 := EmitLabel entry sb
    let sd ← LowerExpr sc cond sc1
    let se ← EmitJumpFalse exitL sd
    let sf ← LowerStmt sc body se
    let sg := EmitJump entry sf
    .ok (EmitLabel exitL sg)
  | .expr e => do
    let s1 ← LowerExpr sc e s
    EmitPop s1
  | .ret e => do
    let s1 ← LowerExpr sc e s
    EmitReturn s1
termination_by structural st

/-- The statement loop of `Codegen::LowerBlockStmt`. -/
def LowerStmts (sc : Scope) (body : List Stmt) (s : CG) : Except Fault CG :=
  match body with
  | [] => .ok s
  | st :: rest => do
    let s1 ← LowerStmt sc st s
    LowerStmts sc rest s1
termination_by structural body

end

/-- `Codegen::LowerBlockStmt`: a fresh block scope, then the exit-depth
assert. -/
def LowerBlockStmt (sc : Scope) (body : List Stmt) (s : CG) : Except Fault CG := do
  let s1 ← LowerStmts (Scope.block sc) body s
  if s1.depth = s.depth then .ok s1
  else .error (.assertFail "mismatched block depth on exit")

/-- `Codegen::LowerFuncDecl`: place the function's entry label, check the
depth invariant, build the argument slot map, lower the body in a function
scope (with `func_` set for `EmitReturn`), and check the exit depth. -/
def LowerFuncDecl (sc : Scope) (d : FuncDecl) (s : CG) : Except Fault CG :=
  match lookupK s.funcs d.name with
  | none => .error (.assertFail "missing function label")
  | some entry =>
    let s1 := EmitLabel entry s
    if s1.depth = 0 then do
      let args := d.args.foldl (fun m p => insertArgName m p.1) []
      let s2 ← LowerBlockStmt (Scope.func args sc) d.body
        { s1 with curArgs := d.args.length }
      if s2.depth = 0 then .ok { s2 with curArgs := 0 }
      else .error (.assertFail "invalid stack depth on function exit")
    else .error (.assertFail "invalid stack depth in global scope")

/-- The declaration pre-scan of `Codegen::Translate`: prototypes are
resolved against `kRuntimeFns`, functions get fresh labels (the label is
created even when a duplicate name makes the `emplace` a no-op). -/
def scanItems : Module → CG → List (String × Nat) → Except Fault (CG × List (String × Nat))
  | [], s, protos => .ok (s, protos)
  | .proto p :: rest, s, protos =>
    match lookupK kRuntimeFns p.primitive with
    | none => .error (.assertFail "missing prototype")
    | some fn => scanItems rest s (emplaceK protos p.name fn)
  | .func f :: rest, s, protos =>
    let (l, s1) := MakeLabel s
    scanItems rest { s1 with funcs := emplaceK s1.funcs f.name l } protos
  | .stmt _ :: rest, s, protos => scanItems rest s protos

/-- The top-level statement loop of `Codegen::Translate`. -/
def lowerTops (sc : Scope) : Module → CG → Except Fault CG
  | [], s => .ok s
  | .stmt st :: rest, s => do
    let s1 ← LowerStmt sc st s
    lowerTops sc rest s1
  | _ :: rest, s => lowerTops sc rest s

/-- The function-body loop of `Codegen::Translate`. -/
def lowerFuncs (sc : Scope) : Module → CG → Except Fault CG
  | [], s => .ok s
  | .func f :: rest, s => do
    let s1 ← LowerFuncDecl sc f s
    lowerFuncs sc rest s1
  | _ :: rest, s => lowerFuncs sc rest s

/-- `Codegen::Translate`: pre-scan declarations, lower the top-level
statements, terminate them with `stop`, then lower every function body. -/
def translate (m : Module) : Except Fault CG := do
  let (s1, protos) ← scanItems m initCG []
  let sc := Scope.global s1.funcs protos
  let s2 ← lowerTops sc m s1
  let s3 := { s2 with code := s2.code ++ [Opcode.stop.toByte] }
  lowerFuncs sc m s3

/-- Translate a module and run the result on the VM from an empty stack,
mirroring `main.cpp`'s translate-then-run (translation faults give
`none`). -/
def runProg (m : Module) (fuel : Nat) (inp : List Int) : Option RunRes :=
  match translate m with
  | .error _ => none
  | .ok s => run s.code fuel ⟨0, [], inp, []⟩

/-- Is a value a plain integer? -/
def Value.isInt : Value → Bool
  | .int _ => true
  | _ => false

/-- Is an error a thrown `RuntimeError` (as opposed to a failed assert)? -/
def VMErr.isRuntime : VMErr → Bool
  | .runtimeError _ => true
  | .assertFail _ => false

/-- The function labels reachable through a scope chain (the values of the
global scope's function map). -/
def scopeFuncLabels : Scope → List Nat
  | .global funcs _ => funcs.map Prod.snd
  | .func _ parent => scopeFuncLabels parent
  | .block parent => scopeFuncLabels parent

/-- A placeholder offset is well-formed in code `c`: in bounds, its high 4
bytes are zero (only the low 4 are ever patched), and its low 4 bytes
decode to a value no larger than the container. -/
def offOK (c : List Nat) (o : Nat) : Prop :=
  o + 8 ≤ c.length ∧ bytesAt c (o + 4) 4 = [0, 0, 0, 0]
    ∧ decLE (bytesAt c o 4) ≤ c.length

instance (c : List Nat) (o : Nat) : Decidable (offOK c o) := by
  unfold offOK; infer_instance

/-- Well-formedness of a code/fixup-table pair: every recorded offset is
well-formed, the 8-byte ranges of distinct recorded offsets do not
overlap, and the table's keys are distinct. -/
def GOODcf (c : List Nat) (fx : List (Nat × List Nat)) : Prop :=
  (∀ p ∈ fx, ∀ o ∈ p.2, offOK c o)
  ∧ (∀ p ∈ fx, ∀ o ∈ p.2, ∀ q ∈ fx, ∀ o' ∈ q.2, o = o' ∨ o + 8 ≤ o' ∨ o' + 8 ≤ o)
  ∧ (fx.map Prod.fst).Nodup

instance (c : List Nat) (fx : List (Nat × List Nat)) : Decidable (GOODcf c fx) := by
  unfold GOODcf; infer_instance

/-- Well-formedness of a generator state. -/
def GOOD (s : CG) : Prop := GOODcf s.code s.fixups

instance (s : CG) : Decidable (GOOD s) := by
  unfold GOOD; infer_instance

/-- A label the generator has resolved to an address. -/
def isPlacedL (s : CG) (L : Nat) : Prop :=
  ∃ a, lookupK s.labelToAddress L = some a

/-- A label with recorded fixups that is not yet placed. -/
def pendL (s : CG) (L : Nat) : Prop :=
  getOr s.fixups L ≠ [] ∧ lookupK s.labelToAddress L = none

/-- Bookkeeping relation between two generator states: the function map is
unchanged, resolved labels stay resolved (to the same address), and any
label pending afterwards was pending before or is one of the labels in
`F`. -/
def Keeps (F : List Nat) (s s' : CG) : Prop :=
  s'.funcs = s.funcs
  ∧ (∀ L a, lookupK s.labelToAddress L = some a → lookupK s'.labelToAddress L = some a)
  ∧ (∀ L, pendL s' L → pendL s L ∨ L ∈ F)

/-- `Keeps` together with preservation of well-formedness. -/
def StepOK (F : List Nat) (s s' : CG) : Prop :=
  Keeps F s s' ∧ (GOOD s → GOOD s')

/-!  The concrete programs used to settle the scenario-level claims.  The
source language has no integer-literal expression (`ast.h` has only
references, additions and calls, and `ParseTermExpr` accepts only
identifiers), so the constants of spec Scenario A are delivered through
the `read_int` native primitive: `input()` below reads them from the
input channel. -/

/-- Scenario A: a two-argument addition function, a native output
primitive, and the single top-level statement
`output(add(input(), input()))`, run on input `[3, 2]` so that `add`
receives `a = 2, b = 3` (arguments are lowered right-to-left, so the
right argument's `input()` runs first). -/
def scnA : Module := [
  .func ⟨"add", [("a", "int"), ("b", "int")], [.ret (.binary (.ref "a") (.ref "b"))]⟩,
  .proto ⟨"output", [("x", "int")], "print_int"⟩,
  .proto ⟨"input", [], "read_int"⟩,
  .stmt (.expr (.call (.ref "output")
    [.call (.ref "add") [.call (.ref "input") [], .call (.ref "input") []]]))
]

/-- The call expression of Scenario A's top-level statement. -/
def outCallA : Expr :=
  .call (.ref "output")
    [.call (.ref "add") [.call (.ref "input") [], .call (.ref "input") []]]

/-- The global scope Scenario A's top-level statement is lowered in. -/
def gsA : Scope := .global [("add", 1)] [("output", 0), ("input", 1)]

/-- The generator state after Scenario A's declaration pre-scan. -/
def s1A : CG := { initCG with nextLabel := 1, funcs := [("add", 1)] }

/-- Scenario A's translated bytecode. -/
def codeA : List Nat :=
  match translate scnA with
  | .ok s => s.code
  | .error _ => []

/-- The initial VM state for Scenario A. -/
def vm0A : VM := ⟨0, [], [3, 2], []⟩

/-- Scenario C (forward reference): a top-level call to `f`, whose
declaration appears later (its body just returns `f`'s own address, the
only value a function of no arguments can produce in this language). -/
def scnC : Module := [
  .stmt (.expr (.call (.ref "f") [])),
  .func ⟨"f", [], [.ret (.ref "f")]⟩
]

/-- The generator state Scenario C's translation ends in. -/
def cgC : CG :=
  match translate scnC with
  | .ok s => s
  | .error _ => initCG

/-- A function whose body ends in a `while` loop: the loop's exit label is
placed at the very end of the bytecode container, one past its last
byte. -/
def cex4M : Module := [
  .proto ⟨"input", [], "read_int"⟩,
  .func ⟨"f", [], [.whileS (.call (.ref "input") []) (.block [])]⟩
]

/-- The generator state `cex4M`'s translation ends in. -/
def cg4 : CG :=
  match translate cex4M with
  | .ok s => s
  | .error _ => initCG

/-- A program whose top-level statement adds two function addresses:
`f + f`. -/
def cex6M : Module := [
  .func ⟨"f", [], [.ret (.ref "f")]⟩,
  .stmt (.expr (.binary (.ref "f") (.ref "f")))
]

/-- Scenario D (runtime type fault): output once, then call the integer
produced by `input()`, then (unreachably) output again. -/
def cex7M : Module := [
  .proto ⟨"output", [("x", "int")], "print_int"⟩,
  .proto ⟨"input", [], "read_int"⟩,
  .stmt (.expr (.call (.ref "output") [.call (.ref "input") []])),
  .stmt (.expr (.call (.call (.ref "input") []) [])),
  .stmt (.expr (.call (.ref "output") [.call (.ref "input") []]))
]

/-- `cex7M`'s translated bytecode. -/
def codeC7 : List Nat :=
  match translate cex7M with
  | .ok s => s.code
  | .error _ => []

/-- `cex6M`'s translated bytecode. -/
def codeC6 : List Nat :=
  match translate cex6M with
  | .ok s => s.code
  | .error _ => []

/-- A program whose top-level statement adds a function address to an
integer read from input: `f + input()`.  Here the first popped (right)
operand of the add is an integer and the second popped (left) operand is
a function address, so the second `PopInt` is the one that asserts. -/
def cex6bM : Module := [
  .proto ⟨"input", [], "read_int"⟩,
  .func ⟨"f", [], [.ret (.ref "f")]⟩,
  .stmt (.expr (.binary (.ref "f") (.call (.ref "input") [])))
]

/-- `cex6bM`'s translated bytecode. -/
def codeC6b : List Nat :=
  match translate cex6bM with
  | .ok s => s.code
  | .error _ => []

/-- The function scope of Scenario A's `add` (parameters `a` at slot 0 and
`b` at slot 1, over the global scope). -/
def fscA : Scope := .func [("a", 0), ("b", 1)] gsA

/-- The generator state of Scenario C just before `f`'s entry label is
placed: the top-level statement and the terminating stop have been
emitted (`PUSH_FUNC` at offset 0 with its 8-byte zero placeholder at
offset 1, `CALL`, `POP`, `STOP`), and the placeholder's offset is recorded
as a fixup for label 1. -/
def cgPreC : CG :=
  ⟨[0, 0, 0, 0, 0, 0, 0, 0, 0, 4, 3, 9], 0, 1, [(1, [1])], [], [("f", 1)], 0⟩

/-!  Byte-level helper lemmas. -/

theorem length_encLE (w v : Nat) : (encLE w v).length = w := by
  induction w generalizing v with
  | zero => rfl
  | succ w ih => simp [encLE, ih]

theorem decLE_encLE (w v : Nat) : decLE (encLE w v) = v % 256 ^ w := by
  induction w generalizing v with
  | zero => simp [encLE, decLE, Nat.mod_one]
  | succ w ih =>
    rw [encLE, decLE, ih, pow_succ', Nat.mod_mul]

theorem decLE_append (xs ys : List Nat) :
    decLE (xs ++ ys) = decLE xs + 256 ^ xs.length * decLE ys := by
  induction xs with
  | nil => simp [decLE]
  | cons b rest ih => simp [decLE, ih, pow_succ]; ring

theorem bytesAt_congr (c c' : List Nat) (o o' n : Nat)
    (h : ∀ k < n, c.getD (o + k) 0 = c'.getD (o' + k) 0) :
    bytesAt c o n = bytesAt c' o' n := by
  unfold bytesAt
  exact List.map_congr_left (fun k hk => h k (List.mem_range.mp hk))

theorem bytesAt_append (c d : List Nat) (o n : Nat) (h : o + n ≤ c.length) :
    bytesAt (c ++ d) o n = bytesAt c o n := by
  refine bytesAt_congr _ _ _ _ _ (fun k hk => ?_)
  exact List.getD_append c d 0 (o + k) (by omega)

theorem bytesAt_right (c d : List Nat) (n : Nat) :
    bytesAt (c ++ d) c.length n = bytesAt d 0 n := by
  refine bytesAt_congr _ _ _ _ _ (fun k hk => ?_)
  rw [List.getD_append_right c d 0 _ (by omega)]
  congr 1
  omega

theorem length_writeBytes (bs c : List Nat) (o : Nat) :
    (writeBytes c o bs).length = c.length := by
  induction bs generalizing c o with
  | nil => rfl
  | cons b rest ih => rw [writeBytes, ih, List.length_set]

theorem getD_writeBytes_out (bs c : List Nat) (o k : Nat)
    (h : k < o ∨ o + bs.length ≤ k) :
    (writeBytes c o bs).getD k 0 = c.getD k 0 := by
  induction bs generalizing c o with
  | nil => rfl
  | cons b rest ih =>
    have h2 : k < o + 1 ∨ o + 1 + rest.length ≤ k := by simp at h; omega
    have hne : o ≠ k := by simp at h; omega
    rw [writeBytes, ih _ _ h2, List.getD_eq_getElem?_getD,
      List.getD_eq_getElem?_getD, List.getElem?_set_ne hne]

theorem getD_writeBytes_in (bs c : List Nat) (o k : Nat)
    (hin : o ≤ k) (hk : k < o + bs.length) (hb : o + bs.length ≤ c.length) :
    (writeBytes c o bs).getD k 0 = bs.getD (k - o) 0 := by
  induction bs generalizing c o with
  | nil => simp at hk; omega
  | cons b rest ih =>
    by_cases hko : k = o
    · subst hko
      rw [writeBytes, getD_writeBytes_out _ _ _ _ (Or.inl (by omega))]
      rw [List.getD_eq_getElem?_getD,
        List.getElem?_set_self (by simp at hb ⊢; omega)]
      simp
    · rw [writeBytes, ih _ _ (by omega) (by simp at hk ⊢; omega)
        (by simp at hb ⊢; omega)]
      have hs : k - o = (k - (o + 1)) + 1 := by omega
      rw [hs, List.getD_cons_succ]

theorem bytesAt_writeBytes_out (bs c : List Nat) (o w o2 n : Nat)
    (h : o2 + n ≤ o ∨ o + bs.length ≤ o2) :
    bytesAt (writeBytes c o bs) o2 n = bytesAt c o2 n := by
  refine bytesAt_congr _ _ _ _ _ (fun k hk => ?_)
  exact getD_writeBytes_out _ _ _ _ (by omega)

theorem bytesAt_writeBytes_self (bs c : List Nat) (o : Nat)
    (hb : o + bs.length ≤ c.length) :
    bytesAt (writeBytes c o bs) o bs.length = bs := by
  refine List.ext_getElem? (fun n => ?_)
  by_cases hn : n < bs.length
  · rw [show bytesAt (writeBytes c o bs) o bs.length
        = (List.range bs.length).map
            (fun k => (writeBytes c o bs).getD (o + k) 0) from rfl]
    rw [List.getElem?_map, List.getElem?_range hn]
    simp only [Option.map_some']
    rw [getD_writeBytes_in _ _ _ _ (by omega) (by omega) hb]
    have : o + n - o = n := by omega
    rw [this, List.getD_eq_getElem?_getD]
    cases hx : bs[n]? with
    | none => exact absurd (List.getElem?_eq_none_iff.mp hx) (by omega)
    | some v => rfl
  · have h1 : (bytesAt (writeBytes c o bs) o bs.length).length = bs.length := by
      simp [bytesAt]
    rw [List.getElem?_eq_none (by omega), List.getElem?_eq_none (by omega)]

theorem bytesAt_append_past (c d : List Nat) (j n : Nat) :
    bytesAt (c ++ d) (c.length + j) n = bytesAt d j n := by
  refine bytesAt_congr _ _ _ _ _ (fun k hk => ?_)
  rw [List.getD_append_right c d 0 _ (by omega)]
  congr 1
  omega

/-!  Association-list helper lemmas (for the `std::map` /
`std::unordered_map` models). -/

theorem lookupK_mem {κ α : Type} [DecidableEq κ] (m : List (κ × α)) (k : κ) (v : α)
    (h : lookupK m k = some v) : (k, v) ∈ m := by
  induction m with
  | nil => simp [lookupK] at h
  | cons p rest ih =>
    obtain ⟨k', v'⟩ := p
    rw [lookupK] at h
    by_cases hk : k' = k
    · rw [if_pos hk] at h
      subst hk
      cases h
      exact List.mem_cons_self _ _
    · rw [if_neg hk] at h
      exact List.mem_cons_of_mem _ (ih h)

theorem lookupK_emplaceK_keep {κ α : Type} [DecidableEq κ]
    (m : List (κ × α)) (k k2 : κ) (v v2 : α)
    (h : lookupK m k = some v) : lookupK (emplaceK m k2 v2) k = some v := by
  induction m with
  | nil => simp [lookupK] at h
  | cons p rest ih =>
    obtain ⟨k', v'⟩ := p
    rw [lookupK] at h
    rw [emplaceK]
    by_cases h2 : k' = k2
    · rw [if_pos h2, lookupK]
      exact h
    · rw [if_neg h2, lookupK]
      by_cases hk : k' = k
      · rwa [if_pos hk] at h ⊢
      · rw [if_neg hk] at h ⊢
        exact ih h

theorem lookupK_emplaceK_self {κ α : Type} [DecidableEq κ]
    (m : List (κ × α)) (k : κ) (v : α) :
    ∃ w, lookupK (emplaceK m k v) k = some w := by
  induction m with
  | nil => exact ⟨v, by simp [emplaceK, lookupK]⟩
  | cons p rest ih =>
    obtain ⟨k', v'⟩ := p
    rw [emplaceK]
    by_cases h2 : k' = k
    · rw [if_pos h2, lookupK, if_pos h2]
      exact ⟨v', rfl⟩
    · rw [if_neg h2, lookupK, if_neg h2]
      exact ih

theorem lookupK_emplaceK_ne {κ α : Type} [DecidableEq κ]
    (m : List (κ × α)) (k k2 : κ) (v : α) (hk : k2 ≠ k) :
    lookupK (emplaceK m k v) k2 = lookupK m k2 := by
  induction m with
  | nil => simp [emplaceK, lookupK, Ne.symm hk]
  | cons p rest ih =>
    obtain ⟨k', v'⟩ := p
    rw [emplaceK]
    by_cases h2 : k' = k
    · rw [if_pos h2]
    · rw [if_neg h2, lookupK, lookupK]
      by_cases hk2 : k' = k2
      · rw [if_pos hk2, if_pos hk2]
      · rw [if_neg hk2, if_neg hk2]
        exact ih

theorem mem_emplaceK {κ α : Type} [DecidableEq κ]
    (m : List (κ × α)) (k : κ) (v : α) (p : κ × α)
    (h : p ∈ emplaceK m k v) : p ∈ m ∨ p = (k, v) := by
  induction m with
  | nil => simp [emplaceK] at h; exact Or.inr h
  | cons q rest ih =>
    obtain ⟨k', v'⟩ := q
    rw [emplaceK] at h
    by_cases h2 : k' = k
    · rw [if_pos h2] at h
      exact Or.inl h
    · rw [if_neg h2] at h
      rcases List.mem_cons.mp h with h | h
      · exact Or.inl (h ▸ List.mem_cons_self _ _)
      · rcases ih h with h | h
        · exact Or.inl (List.mem_cons_of_mem _ h)
        · exact Or.inr h

theorem mem_keys_emplaceK {κ α : Type} [DecidableEq κ]
    (m : List (κ × α)) (k k2 : κ) (v : α)
    (h : k2 ∈ (emplaceK m k v).map Prod.fst) :
    k2 ∈ m.map Prod.fst ∨ k2 = k := by
  rcases List.mem_map.mp h with ⟨p, hp, he⟩
  rcases mem_emplaceK _ _ _ _ hp with h2 | h2
  · exact Or.inl (he ▸ List.mem_map_of_mem Prod.fst h2)
  · subst h2
    exact Or.inr he.symm

theorem keys_emplaceK_nodup {κ α : Type} [DecidableEq κ]
    (m : List (κ × α)) (k : κ) (v : α)
    (h : (m.map Prod.fst).Nodup) : ((emplaceK m k v).map Prod.fst).Nodup := by
  induction m with
  | nil => simp [emplaceK]
  | cons q rest ih =>
    obtain ⟨k', v'⟩ := q
    rw [emplaceK]
    by_cases h2 : k' = k
    · rwa [if_pos h2]
    · rw [if_neg h2]
      simp only [List.map_cons, List.nodup_cons] at h ⊢
      refine ⟨fun hmem => ?_, ih h.2⟩
      rcases mem_keys_emplaceK _ _ _ _ hmem with h3 | h3
      · exact h.1 h3
      · exact h2 h3

theorem getOr_setK_self (m : List (Nat × List Nat)) (k : Nat) (v : List Nat) :
    getOr (setK m k v) k = v := by
  induction m with
  | nil => simp [setK, getOr]
  | cons q rest ih =>
    obtain ⟨k', v'⟩ := q
    rw [setK]
    by_cases h2 : k' = k
    · rw [if_pos h2, getOr, if_pos h2]
    · rw [if_neg h2, getOr, if_neg h2]
      exact ih

theorem getOr_setK_ne (m : List (Nat × List Nat)) (k k2 : Nat) (v : List Nat)
    (h : k2 ≠ k) : getOr (setK m k v) k2 = getOr m k2 := by
  induction m with
  | nil => simp [setK, getOr, Ne.symm h]
  | cons q rest ih =>
    obtain ⟨k', v'⟩ := q
    rw [setK]
    by_cases h2 : k' = k
    · subst h2
      rw [if_pos rfl, getOr, getOr, if_neg (fun hh => h hh.symm),
        if_neg (fun hh => h hh.symm)]
    · rw [if_neg h2, getOr, getOr]
      by_cases hk2 : k' = k2
      · rw [if_pos hk2, if_pos hk2]
      · rw [if_neg hk2, if_neg hk2]
        exact ih

theorem mem_setK (m : List (Nat × List Nat)) (k : Nat) (v : List Nat)
    (p : Nat × List Nat) (h : p ∈ setK m k v) : p ∈ m ∨ p = (k, v) := by
  induction m with
  | nil => simp [setK] at h; exact Or.inr h
  | cons q rest ih =>
    obtain ⟨k', v'⟩ := q
    rw [setK] at h
    by_cases h2 : k' = k
    · rw [if_pos h2] at h
      rcases List.mem_cons.mp h with h | h
      · subst h2; exact Or.inr h
      · exact Or.inl (List.mem_cons_of_mem _ h)
    · rw [if_neg h2] at h
      rcases List.mem_cons.mp h with h | h
      · exact Or.inl (h ▸ List.mem_cons_self _ _)
      · rcases ih h with h | h
        · exact Or.inl (List.mem_cons_of_mem _ h)
        · exact Or.inr h

theorem getOr_mem (m : List (Nat × List Nat)) (k : Nat)
    (h : getOr m k ≠ []) : (k, getOr m k) ∈ m := by
  induction m with
  | nil => simp [getOr] at h
  | cons q rest ih =>
    obtain ⟨k', v'⟩ := q
    rw [getOr] at h ⊢
    by_cases h2 : k' = k
    · rw [if_pos h2] at h ⊢
      subst h2
      exact List.mem_cons_self _ _
    · rw [if_neg h2] at h ⊢
      exact List.mem_cons_of_mem _ (ih h)

theorem mem_keys_setK (m : List (Nat × List Nat)) (k k2 : Nat) (v : List Nat)
    (h : k2 ∈ (setK m k v).map Prod.fst) : k2 ∈ m.map Prod.fst ∨ k2 = k := by
  rcases List.mem_map.mp h with ⟨p, hp, he⟩
  rcases mem_setK _ _ _ _ hp with h2 | h2
  · exact Or.inl (he ▸ List.mem_map_of_mem Prod.fst h2)
  · subst h2
    exact Or.inr he.symm

theorem keys_setK_nodup (m : List (Nat × List Nat)) (k : Nat) (v : List Nat)
    (h : (m.map Prod.fst).Nodup) : ((setK m k v).map Prod.fst).Nodup := by
  induction m with
  | nil => simp [setK]
  | cons q rest ih =>
    obtain ⟨k', v'⟩ := q
    rw [setK]
    by_cases h2 : k' = k
    · rw [if_pos h2]
      simp only [List.map_cons, List.nodup_cons] at h ⊢
      exact h
    · rw [if_neg h2]
      simp only [List.map_cons, List.nodup_cons] at h ⊢
      refine ⟨fun hmem => ?_, ih h.2⟩
      rcases mem_keys_setK _ _ _ _ hmem with h3 | h3
      · exact h.1 h3
      · exact h2 h3

theorem getOr_of_mem_nodup (m : List (Nat × List Nat)) (k : Nat) (v : List Nat)
    (hm : (k, v) ∈ m) (h : (m.map Prod.fst).Nodup) : getOr m k = v := by
  induction m with
  | nil => cases hm
  | cons q rest ih =>
    obtain ⟨k', v'⟩ := q
    simp only [List.map_cons, List.nodup_cons] at h
    rw [getOr]
    rcases List.mem_cons.mp hm with h2 | h2
    · cases h2
      rw [if_pos rfl]
    · by_cases hk : k' = k
      · subst hk
        exact absurd (List.mem_map_of_mem Prod.fst h2) h.1
      · rw [if_neg hk]
        exact ih h2 h.2

theorem lookupK_of_mem_nodup {κ α : Type} [DecidableEq κ]
    (m : List (κ × α)) (k : κ) (v : α)
    (hm : (k, v) ∈ m) (h : (m.map Prod.fst).Nodup) : lookupK m k = some v := by
  induction m with
  | nil => cases hm
  | cons q rest ih =>
    obtain ⟨k', v'⟩ := q
    simp only [List.map_cons, List.nodup_cons] at h
    rw [lookupK]
    rcases List.mem_cons.mp hm with h2 | h2
    · cases h2
      rw [if_pos rfl]
    · by_cases hk : k' = k
      · subst hk
        exact absurd (List.mem_map_of_mem Prod.fst h2) h.1
      · rw [if_neg hk]
        exact ih h2 h.2

/-!  Preservation of the placeholder well-formedness invariant. -/

theorem offOK_append (c d : List Nat) (o : Nat) (h : offOK c o) :
    offOK (c ++ d) o := by
  obtain ⟨h1, h2, h3⟩ := h
  refine ⟨by simp; omega, ?_, ?_⟩
  · rw [bytesAt_append _ _ _ _ (by omega)]
    exact h2
  · rw [bytesAt_append _ _ _ _ (by omega)]
    simp
    omega

theorem goodcf_append (c d : List Nat) (fx : List (Nat × List Nat))
    (h : GOODcf c fx) : GOODcf (c ++ d) fx := by
  obtain ⟨h1, h2, h3⟩ := h
  exact ⟨fun p hp o ho => offOK_append _ _ _ (h1 p hp o ho), h2, h3⟩

theorem goodcf_addFixup (c : List Nat) (fx : List (Nat × List Nat)) (L : Nat)
    (h : GOODcf c fx) :
    GOODcf (c ++ encLE 8 0) (setK fx L (getOr fx L ++ [c.length])) := by
  obtain ⟨h1, h2, h3⟩ := h
  have hcases : ∀ p ∈ setK fx L (getOr fx L ++ [c.length]), ∀ o ∈ p.2,
      (∃ q ∈ fx, o ∈ q.2) ∨ o = c.length := by
    intro p hp o ho
    rcases mem_setK _ _ _ _ hp with hp2 | hp2
    · exact Or.inl ⟨p, hp2, ho⟩
    · subst hp2
      rcases List.mem_append.mp ho with ho2 | ho2
      · refine Or.inl ⟨(L, getOr fx L), getOr_mem _ _ ?_, ho2⟩
        intro hemp
        rw [hemp] at ho2
        cases ho2
      · simp at ho2
        exact Or.inr ho2
  have hnew : offOK (c ++ encLE 8 0) c.length := by
    refine ⟨by simp [length_encLE], ?_, ?_⟩
    · rw [show c.length + 4 = c.length + 4 from rfl,
        bytesAt_append_past c (encLE 8 0) 4 4]
      decide
    · have h0 : bytesAt (c ++ encLE 8 0) (c.length + 0) 4 = bytesAt (encLE 8 0) 0 4 :=
        bytesAt_append_past c (encLE 8 0) 0 4
      simp only [Nat.add_zero] at h0
      rw [h0, show decLE (bytesAt (encLE 8 0) 0 4) = 0 from by decide]
      exact Nat.zero_le _
  refine ⟨?_, ?_, keys_setK_nodup _ _ _ h3⟩
  · intro p hp o ho
    rcases hcases p hp o ho with ⟨q, hq, hoq⟩ | ho2
    · exact offOK_append _ _ _ (h1 q hq o hoq)
    · subst ho2
      exact hnew
  · intro p hp o ho q hq o2 ho2
    rcases hcases p hp o ho with ⟨p3, hp3, ho3⟩ | ho3 <;>
      rcases hcases q hq o2 ho2 with ⟨q3, hq3, ho4⟩ | ho4
    · exact h2 p3 hp3 o ho3 q3 hq3 o2 ho4
    · subst ho4
      have := (h1 p3 hp3 o ho3).1
      omega
    · subst ho3
      have := (h1 q3 hq3 o2 ho4).1
      omega
    · subst ho3
      subst ho4
      exact Or.inl rfl

theorem goodcf_patch_one (c : List Nat) (fx : List (Nat × List Nat))
    (o0 a : Nat) (h : GOODcf c fx) (hmem : ∃ q ∈ fx, o0 ∈ q.2)
    (ha : a ≤ c.length) :
    GOODcf (writeBytes c o0 (encLE 4 a)) fx
    ∧ (writeBytes c o0 (encLE 4 a)).length = c.length := by
  obtain ⟨h1, h2, h3⟩ := h
  obtain ⟨q0, hq0, ho0⟩ := hmem
  have hlen : (writeBytes c o0 (encLE 4 a)).length = c.length :=
    length_writeBytes _ _ _
  have henclen : (encLE 4 a).length = 4 := length_encLE 4 a
  refine ⟨⟨?_, h2, h3⟩, hlen⟩
  intro p hp o ho
  obtain ⟨hb1, hb2, hb3⟩ := h1 p hp o ho
  rcases h2 p hp o ho q0 hq0 o0 ho0 with heq | hlt | hgt
  · subst heq
    refine ⟨by omega, ?_, ?_⟩
    · rw [bytesAt_writeBytes_out _ _ _ 0 _ _ (Or.inr (by omega))]
      exact hb2
    · have : bytesAt (writeBytes c o (encLE 4 a)) o 4 = encLE 4 a := by
        have := bytesAt_writeBytes_self (encLE 4 a) c o (by omega)
        rwa [henclen] at this
      rw [this, decLE_encLE]
      calc a % 256 ^ 4 ≤ a := Nat.mod_le _ _
        _ ≤ c.length := ha
        _ = (writeBytes c o (encLE 4 a)).length := hlen.symm
  · refine ⟨by omega, ?_, ?_⟩
    · rw [bytesAt_writeBytes_out _ _ _ 0 _ _ (Or.inl (by omega))]
      exact hb2
    · rw [bytesAt_writeBytes_out _ _ _ 0 _ _ (Or.inl (by omega)), hlen]
      exact hb3
  · refine ⟨by omega, ?_, ?_⟩
    · rw [bytesAt_writeBytes_out _ _ _ 0 _ _ (Or.inr (by omega))]
      exact hb2
    · rw [bytesAt_writeBytes_out _ _ _ 0 _ _ (Or.inr (by omega)), hlen]
      exact hb3

theorem goodcf_patchAll (locs : List Nat) (c : List Nat)
    (fx : List (Nat × List Nat)) (a : Nat) (h : GOODcf c fx)
    (hsub : ∀ o ∈ locs, ∃ q ∈ fx, o ∈ q.2) (ha : a ≤ c.length) :
    GOODcf (locs.foldl (fun cc o => writeBytes cc o (encLE 4 a)) c) fx
    ∧ (locs.foldl (fun cc o => writeBytes cc o (encLE 4 a)) c).length = c.length := by
  induction locs generalizing c with
  | nil => exact ⟨h, rfl⟩
  | cons o0 rest ih =>
    obtain ⟨hg, hl⟩ := goodcf_patch_one c fx o0 a h
      (hsub o0 (List.mem_cons_self _ _)) ha
    obtain ⟨hg2, hl2⟩ := ih (writeBytes c o0 (encLE 4 a)) hg
      (fun o ho => hsub o (List.mem_cons_of_mem _ ho)) (by omega)
    exact ⟨hg2, by rw [List.foldl_cons, hl2, hl]⟩

theorem goodcf_setK_same (c : List Nat) (fx : List (Nat × List Nat)) (L : Nat)
    (h : GOODcf c fx) : GOODcf c (setK fx L (getOr fx L)) := by
  obtain ⟨h1, h2, h3⟩ := h
  have hcases : ∀ p ∈ setK fx L (getOr fx L), ∀ o ∈ p.2, ∃ q ∈ fx, o ∈ q.2 := by
    intro p hp o ho
    rcases mem_setK _ _ _ _ hp with hp2 | hp2
    · exact ⟨p, hp2, ho⟩
    · subst hp2
      refine ⟨(L, getOr fx L), getOr_mem _ _ ?_, ho⟩
      intro hemp
      rw [hemp] at ho
      cases ho
  refine ⟨?_, ?_, keys_setK_nodup _ _ _ h3⟩
  · intro p hp o ho
    obtain ⟨q, hq, hoq⟩ := hcases p hp o ho
    exact h1 q hq o hoq
  · intro p hp o ho q hq o2 ho2
    obtain ⟨p3, hp3, ho3⟩ := hcases p hp o ho
    obtain ⟨q3, hq3, ho4⟩ := hcases q hq o2 ho2
    exact h2 p3 hp3 o ho3 q3 hq3 o2 ho4

theorem emitLabel_GOOD (L : Nat) (s : CG) (h : GOOD s) : GOOD (EmitLabel L s) := by
  obtain ⟨hp, hl⟩ := goodcf_patchAll (getOr s.fixups L) s.code s.fixups
    s.code.length h
    (fun o ho => ⟨(L, getOr s.fixups L),
      getOr_mem _ _ (fun hemp => by rw [hemp] at ho; cases ho), ho⟩)
    (le_refl _)
  exact goodcf_setK_same _ _ _ hp

theorem emitLabel_code_length (L : Nat) (s : CG) (h : GOOD s) :
    (EmitLabel L s).code.length = s.code.length := by
  obtain ⟨hp, hl⟩ := goodcf_patchAll (getOr s.fixups L) s.code s.fixups
    s.code.length h
    (fun o ho => ⟨(L, getOr s.fixups L),
      getOr_mem _ _ (fun hemp => by rw [hemp] at ho; cases ho), ho⟩)
    (le_refl _)
  exact hl

/-!  Bookkeeping lemmas: `Keeps` and `StepOK`. -/

theorem keeps_refl (F : List Nat) (s : CG) : Keeps F s s :=
  ⟨rfl, fun _ _ h => h, fun _ h => Or.inl h⟩

theorem keeps_trans (F : List Nat) (s1 s2 s3 : CG)
    (h1 : Keeps F s1 s2) (h2 : Keeps F s2 s3) : Keeps F s1 s3 := by
  refine ⟨h2.1.trans h1.1, fun L a h => h2.2.1 L a (h1.2.1 L a h), fun L h => ?_⟩
  rcases h2.2.2 L h with h3 | h3
  · exact h1.2.2 L h3
  · exact Or.inr h3

theorem keeps_mono (F F2 : List Nat) (s s2 : CG)
    (hsub : ∀ L, L ∈ F → L ∈ F2) (h : Keeps F s s2) : Keeps F2 s s2 := by
  refine ⟨h.1, h.2.1, fun L hp => ?_⟩
  rcases h.2.2 L hp with h3 | h3
  · exact Or.inl h3
  · exact Or.inr (hsub L h3)

theorem keeps_of_eq (F : List Nat) (s s2 : CG)
    (h1 : s2.funcs = s.funcs) (h2 : s2.labelToAddress = s.labelToAddress)
    (h3 : s2.fixups = s.fixups) : Keeps F s s2 := by
  refine ⟨h1, fun L a h => by rw [h2]; exact h, fun L hp => Or.inl ?_⟩
  unfold pendL at hp ⊢
  rw [h2, h3] at hp
  exact hp

theorem keeps_emitFixup (L : Nat) (s : CG) : Keeps [L] s (EmitFixup L s) := by
  unfold EmitFixup
  cases hq : lookupK s.labelToAddress L with
  | some a => exact keeps_of_eq _ _ _ rfl rfl rfl
  | none =>
    refine ⟨rfl, fun L2 a h => h, fun L2 hp => ?_⟩
    by_cases hL : L2 = L
    · subst hL
      exact Or.inr (List.mem_cons_self _ _)
    · obtain ⟨hp1, hp2⟩ := hp
      rw [show (({ s with
            fixups := setK s.fixups L (getOr s.fixups L ++ [s.code.length]),
            code := s.code ++ encLE 8 0 } : CG)).fixups
          = setK s.fixups L (getOr s.fixups L ++ [s.code.length]) from rfl,
        getOr_setK_ne _ _ _ _ hL] at hp1
      exact Or.inl ⟨hp1, hp2⟩

theorem keeps_emitLabel (F : List Nat) (L : Nat) (s : CG) :
    Keeps F s (EmitLabel L s) := by
  refine ⟨rfl, fun L2 a h => lookupK_emplaceK_keep _ _ _ _ _ h, fun L2 hp => ?_⟩
  obtain ⟨hp1, hp2⟩ := hp
  by_cases hL : L2 = L
  · subst hL
    obtain ⟨w, hw⟩ := lookupK_emplaceK_self s.labelToAddress L2
      ((s.code.length : Nat) % 4294967296)
    rw [show (EmitLabel L2 s).labelToAddress
        = emplaceK s.labelToAddress L2 (s.code.length % 4294967296) from rfl,
      hw] at hp2
    cases hp2
  · rw [show (EmitLabel L s).fixups = setK s.fixups L (getOr s.fixups L) from rfl,
      getOr_setK_ne _ _ _ _ hL] at hp1
    rw [show (EmitLabel L s).labelToAddress
        = emplaceK s.labelToAddress L (s.code.length % 4294967296) from rfl,
      lookupK_emplaceK_ne _ _ _ _ hL] at hp2
    exact Or.inl ⟨hp1, hp2⟩

theorem isPlaced_emitLabel (L : Nat) (s : CG) : isPlacedL (EmitLabel L s) L :=
  lookupK_emplaceK_self _ _ _

theorem isPlaced_keeps (F : List Nat) (s s2 : CG) (L : Nat)
    (h : Keeps F s s2) (hp : isPlacedL s L) : isPlacedL s2 L := by
  obtain ⟨a, ha⟩ := hp
  exact ⟨a, h.2.1 L a ha⟩

theorem not_pend_of_placed (s : CG) (L : Nat)
    (hp : isPlacedL s L) : ¬ pendL s L := by
  obtain ⟨a, ha⟩ := hp
  intro hpd
  rw [hpd.2] at ha
  cases ha

theorem stepOK_refl (F : List Nat) (s : CG) : StepOK F s s :=
  ⟨keeps_refl F s, fun h => h⟩

theorem stepOK_trans (F : List Nat) (s1 s2 s3 : CG)
    (h1 : StepOK F s1 s2) (h2 : StepOK F s2 s3) : StepOK F s1 s3 :=
  ⟨keeps_trans F _ _ _ h1.1 h2.1, fun h => h2.2 (h1.2 h)⟩

theorem stepOK_mono (F F2 : List Nat) (s s2 : CG)
    (hsub : ∀ L, L ∈ F → L ∈ F2) (h : StepOK F s s2) : StepOK F2 s s2 :=
  ⟨keeps_mono F F2 _ _ hsub h.1, h.2⟩

theorem stepOK_of_append (F : List Nat) (s s2 : CG) (X : List Nat)
    (hc : s2.code = s.code ++ X) (hf : s2.fixups = s.fixups)
    (hl : s2.labelToAddress = s.labelToAddress) (hfn : s2.funcs = s.funcs) :
    StepOK F s s2 := by
  refine ⟨keeps_of_eq _ _ _ hfn hl hf, fun h => ?_⟩
  unfold GOOD at h ⊢
  rw [hc, hf]
  exact goodcf_append _ _ _ h

theorem stepOK_emitFixup (F : List Nat) (L : Nat) (s : CG) (hL : L ∈ F) :
    StepOK F s (EmitFixup L s) := by
  refine ⟨keeps_mono [L] F _ _ (fun L2 h => by simp at h; rwa [h]) (keeps_emitFixup L s),
    fun h => ?_⟩
  unfold EmitFixup
  cases hq : lookupK s.labelToAddress L with
  | some a => exact goodcf_append _ _ _ h
  | none => exact goodcf_addFixup _ _ _ h

theorem stepOK_emitLabel (F : List Nat) (L : Nat) (s : CG) :
    StepOK F s (EmitLabel L s) :=
  ⟨keeps_emitLabel F L s, emitLabel_GOOD L s⟩

theorem stepOK_MakeLabel (F : List Nat) (s : CG) :
    StepOK F s (MakeLabel s).2 :=
  ⟨keeps_of_eq _ _ _ rfl rfl rfl, fun h => h⟩

theorem stepOK_EmitPushProto (F : List Nat) (fn : Nat) (s : CG) :
    StepOK F s (EmitPushProto fn s) :=
  stepOK_of_append F _ _ ([Opcode.push_proto.toByte] ++ encLE 8 fn)
    (by simp [EmitPushProto]) rfl rfl rfl

theorem stepOK_EmitPeek (F : List Nat) (idx : Nat) (s : CG) :
    StepOK F s (EmitPeek idx s) :=
  stepOK_of_append F _ _ ([Opcode.peek.toByte] ++ encLE 4 idx)
    (by simp [EmitPeek]) rfl rfl rfl

theorem stepOK_EmitCall (F : List Nat) (n : Nat) (s : CG) :
    StepOK F s (EmitCall n s) :=
  stepOK_of_append F _ _ [Opcode.call.toByte] (by simp [EmitCall]) rfl rfl rfl

theorem stepOK_EmitPushFunc (F : List Nat) (entry : Nat) (s : CG)
    (hL : entry ∈ F) : StepOK F s (EmitPushFunc entry s) := by
  unfold EmitPushFunc
  refine stepOK_trans F s
    { s with depth := s.depth + 1, code := s.code ++ [Opcode.push_func.toByte] } _
    ?_ (stepOK_emitFixup F entry _ hL)
  exact stepOK_of_append F _ _ [Opcode.push_func.toByte] rfl rfl rfl rfl

theorem stepOK_EmitPop (F : List Nat) (s s2 : CG) (h : EmitPop s = .ok s2) :
    StepOK F s s2 := by
  unfold EmitPop at h
  by_cases hd : s.depth = 0
  · rw [if_pos hd] at h
    cases h
  · rw [if_neg hd] at h
    cases h
    exact stepOK_of_append F _ _ [Opcode.pop.toByte] rfl rfl rfl rfl

theorem stepOK_EmitAdd (F : List Nat) (s s2 : CG) (h : EmitAdd s = .ok s2) :
    StepOK F s s2 := by
  unfold EmitAdd at h
  by_cases hd : s.depth = 0
  · rw [if_pos hd] at h
    cases h
  · rw [if_neg hd] at h
    cases h
    exact stepOK_of_append F _ _ [Opcode.add.toByte] rfl rfl rfl rfl

theorem stepOK_EmitReturn (F : List Nat) (s s2 : CG)
    (h : EmitReturn s = .ok s2) : StepOK F s s2 := by
  unfold EmitReturn at h
  by_cases hd : s.depth = 0
  · rw [if_pos hd] at h
    cases h
  · rw [if_neg hd] at h
    cases h
    exact stepOK_of_append F _ _
      ([Opcode.ret.toByte] ++ encLE 4 (s.depth - 1) ++ encLE 4 s.curArgs)
      (by simp) rfl rfl rfl

theorem stepOK_EmitJumpFalse (F : List Nat) (L : Nat) (s s2 : CG)
    (hL : L ∈ F) (h : EmitJumpFalse L s = .ok s2) : StepOK F s s2 := by
  unfold EmitJumpFalse at h
  by_cases hd : s.depth = 0
  · rw [if_pos hd] at h
    cases h
  · rw [if_neg hd] at h
    cases h
    refine stepOK_trans F s
      { s with depth := s.depth - 1, code := s.code ++ [Opcode.jump_false.toByte] } _
      ?_ (stepOK_emitFixup F L _ hL)
    exact stepOK_of_append F _ _ [Opcode.jump_false.toByte] rfl rfl rfl rfl

theorem stepOK_EmitJump (F : List Nat) (L : Nat) (s : CG) (hL : L ∈ F) :
    StepOK F s (EmitJump L s) := by
  unfold EmitJump
  refine stepOK_trans F s
    { s with code := s.code ++ [Opcode.jump.toByte] } _
    ?_ (stepOK_emitFixup F L _ hL)
  exact stepOK_of_append F _ _ [Opcode.jump.toByte] rfl rfl rfl rfl

/-!  Specifications of the lowering functions, by structural induction. -/

theorem except_bind_ok {α β : Type} (x : Except Fault α) (f : α → Except Fault β)
    (b : β) (h : (x >>= f) = .ok b) : ∃ a, x = .ok a ∧ f a = .ok b := by
  cases x with
  | error e => simp [Bind.bind, Except.bind] at h
  | ok a => exact ⟨a, rfl, by simpa [Bind.bind, Except.bind] using h⟩

theorem stepOK_of_eq (F : List Nat) (s s2 : CG)
    (hc : s2.code = s.code) (hf : s2.fixups = s.fixups)
    (hl : s2.labelToAddress = s.labelToAddress) (hfn : s2.funcs = s.funcs) :
    StepOK F s s2 := by
  refine ⟨keeps_of_eq _ _ _ hfn hl hf, fun h => ?_⟩
  unfold GOOD at h ⊢
  rw [hc, hf]
  exact h

theorem stepOK_discharge (F P : List Nat) (s s2 : CG)
    (h : StepOK (P ++ F) s s2) (hp : ∀ L ∈ P, isPlacedL s2 L) : StepOK F s s2 := by
  refine ⟨⟨h.1.1, h.1.2.1, fun L hpd => ?_⟩, h.2⟩
  rcases h.1.2.2 L hpd with h3 | h3
  · exact Or.inl h3
  · rcases List.mem_append.mp h3 with h4 | h4
    · exact absurd hpd (not_pend_of_placed _ _ (hp L h4))
    · exact Or.inr h4

theorem lookup_func_mem (sc : Scope) (n : String) (L : Nat)
    (h : sc.lookup n = .ok (.func L)) : L ∈ scopeFuncLabels sc := by
  induction sc with
  | global funcs protos =>
    unfold Scope.lookup at h
    cases hf : lookupK funcs n with
    | some l =>
      rw [hf] at h
      simp only [Except.ok.injEq, Binding.func.injEq] at h
      subst h
      exact List.mem_map_of_mem Prod.snd (lookupK_mem _ _ _ hf)
    | none =>
      rw [hf] at h
      cases hp : lookupK protos n with
      | some fn => rw [hp] at h; simp at h
      | none => rw [hp] at h; simp at h
  | func args parent ih =>
    unfold Scope.lookup at h
    cases ha : lookupK args n with
    | some i => rw [ha] at h; simp at h
    | none =>
      rw [ha] at h
      exact ih h
  | block parent ih =>
    unfold Scope.lookup at h
    exact ih h

mutual

theorem LowerExpr_stepOK (sc : Scope) (e : Expr) (s s2 : CG)
    (h : LowerExpr sc e s = .ok s2) : StepOK (scopeFuncLabels sc) s s2 := by
  cases e with
  | ref name =>
    unfold LowerExpr at h
    cases hl : sc.lookup name with
    | error f => rw [hl] at h; cases h
    | ok b =>
      rw [hl] at h
      cases b with
      | func entry =>
        cases h
        exact stepOK_EmitPushFunc _ entry s (lookup_func_mem _ _ _ hl)
      | proto fn =>
        cases h
        exact stepOK_EmitPushProto _ fn s
      | arg i =>
        cases h
        exact stepOK_EmitPeek _ _ s
  | binary lhs rhs =>
    unfold LowerExpr at h
    obtain ⟨sa, ha, h⟩ := except_bind_ok _ _ _ h
    obtain ⟨sb, hb, h⟩ := except_bind_ok _ _ _ h
    exact stepOK_trans _ _ _ _ (LowerExpr_stepOK sc lhs s sa ha)
      (stepOK_trans _ _ _ _ (LowerExpr_stepOK sc rhs sa sb hb)
        (stepOK_EmitAdd _ _ _ h))
  | call callee args =>
    unfold LowerExpr at h
    obtain ⟨sa, ha, h⟩ := except_bind_ok _ _ _ h
    obtain ⟨sb, hb, h⟩ := except_bind_ok _ _ _ h
    cases h
    refine stepOK_trans _ _ _ _ (LowerArgsRev_stepOK sc args s sa ha)
      (stepOK_trans _ _ _ _ (LowerExpr_stepOK sc callee sa sb hb)
        (stepOK_trans _ _ _ _ (stepOK_EmitCall _ args.length sb)
          (stepOK_of_eq _ _ _ rfl rfl rfl rfl)))
termination_by structural e

theorem LowerArgsRev_stepOK (sc : Scope) (args : List Expr) (s s2 : CG)
    (h : LowerArgsRev sc args s = .ok s2) : StepOK (scopeFuncLabels sc) s s2 := by
  cases args with
  | nil =>
    unfold LowerArgsRev at h
    cases h
    exact stepOK_refl _ _
  | cons a rest =>
    unfold LowerArgsRev at h
    obtain ⟨sa, ha, h⟩ := except_bind_ok _ _ _ h
    exact stepOK_trans _ _ _ _ (LowerArgsRev_stepOK sc rest s sa ha)
      (LowerExpr_stepOK sc a sa s2 h)
termination_by structural args

end

mutual

theorem LowerStmt_stepOK (sc : Scope) (st : Stmt) (s s2 : CG)
    (h : LowerStmt sc st s = .ok s2) : StepOK (scopeFuncLabels sc) s s2 := by
  cases st with
  | block body =>
    unfold LowerStmt at h
    obtain ⟨sa, ha, h⟩ := except_bind_ok _ _ _ h
    by_cases hd : sa.depth = s.depth
    · rw [if_pos hd] at h
      cases h
      exact LowerStmts_stepOK (Scope.block sc) body s s2 ha
    · rw [if_neg hd] at h
      cases h
  | whileS cond body =>
    unfold LowerStmt at h
    simp only [MakeLabel] at h
    obtain ⟨sd, hd, h⟩ := except_bind_ok _ _ _ h
    obtain ⟨se, he, h⟩ := except_bind_ok _ _ _ h
    obtain ⟨sf, hf, h⟩ := except_bind_ok _ _ _ h
    cases h
    set entry := s.nextLabel + 1 with hentry
    set exitL := s.nextLabel + 1 + 1 with hexitL
    set F := scopeFuncLabels sc with hF
    set sb : CG := { s with nextLabel := s.nextLabel + 1 + 1 } with hsb
    have k1 : StepOK ([entry, exitL] ++ F) s sb :=
      stepOK_of_eq _ _ _ rfl rfl rfl rfl
    have k2 : StepOK ([entry, exitL] ++ F) sb (EmitLabel entry sb) :=
      stepOK_emitLabel _ entry sb
    have k3 : StepOK ([entry, exitL] ++ F) (EmitLabel entry sb) sd :=
      stepOK_mono F _ _ _
        (fun L hL => List.mem_append.mpr (Or.inr hL))
        (LowerExpr_stepOK sc cond _ sd hd)
    have k4 : StepOK ([entry, exitL] ++ F) sd se :=
      stepOK_EmitJumpFalse _ exitL _ _ (by simp) he
    have k5 : StepOK ([entry, exitL] ++ F) se sf :=
      stepOK_mono F _ _ _
        (fun L hL => List.mem_append.mpr (Or.inr hL))
        (LowerStmt_stepOK sc body se sf hf)
    have k6 : StepOK ([entry, exitL] ++ F) sf (EmitJump entry sf) :=
      stepOK_EmitJump _ entry sf (by simp)
    have k7 : StepOK ([entry, exitL] ++ F) (EmitJump entry sf)
        (EmitLabel exitL (EmitJump entry sf)) :=
      stepOK_emitLabel _ exitL _
    have hall : StepOK ([entry, exitL] ++ F) s
        (EmitLabel exitL (EmitJump entry sf)) :=
      stepOK_trans _ _ _ _ k1 (stepOK_trans _ _ _ _ k2 (stepOK_trans _ _ _ _ k3
        (stepOK_trans _ _ _ _ k4 (stepOK_trans _ _ _ _ k5
          (stepOK_trans _ _ _ _ k6 k7)))))
    refine stepOK_discharge F [entry, exitL] _ _ hall ?_
    intro L hL
    rcases List.mem_cons.mp hL with hL | hL
    · subst hL
      have hplaced : isPlacedL (EmitLabel entry sb) entry := isPlaced_emitLabel _ _
      exact isPlaced_keeps _ _ _ _
        (keeps_trans _ _ _ _ k3.1 (keeps_trans _ _ _ _ k4.1
          (keeps_trans _ _ _ _ k5.1 (keeps_trans _ _ _ _ k6.1 k7.1)))) hplaced
    · rcases List.mem_cons.mp hL with hL | hL
      · subst hL
        exact isPlaced_emitLabel _ _
      · cases hL
  | expr e =>
    unfold LowerStmt at h
    obtain ⟨sa, ha, h⟩ := except_bind_ok _ _ _ h
    exact stepOK_trans _ _ _ _ (LowerExpr_stepOK sc e s sa ha)
      (stepOK_EmitPop _ _ _ h)
  | ret e =>
    unfold LowerStmt at h
    obtain ⟨sa, ha, h⟩ := except_bind_ok _ _ _ h
    exact stepOK_trans _ _ _ _ (LowerExpr_stepOK sc e s sa ha)
      (stepOK_EmitReturn _ _ _ h)
termination_by structural st

theorem LowerStmts_stepOK (sc : Scope) (body : List Stmt) (s s2 : CG)
    (h : LowerStmts sc body s = .ok s2) : StepOK (scopeFuncLabels sc) s s2 := by
  cases body with
  | nil =>
    unfold LowerStmts at h
    cases h
    exact stepOK_refl _ _
  | cons st rest =>
    unfold LowerStmts at h
    obtain ⟨sa, ha, h⟩ := except_bind_ok _ _ _ h
    exact stepOK_trans _ _ _ _ (LowerStmt_stepOK sc st s sa ha)
      (LowerStmts_stepOK sc rest sa s2 h)
termination_by structural body

end

theorem LowerBlockStmt_stepOK (sc : Scope) (body : List Stmt) (s s2 : CG)
    (h : LowerBlockStmt sc body s = .ok s2) : StepOK (scopeFuncLabels sc) s s2 := by
  unfold LowerBlockStmt at h
  obtain ⟨sa, ha, h⟩ := except_bind_ok _ _ _ h
  by_cases hd : sa.depth = s.depth
  · rw [if_pos hd] at h
    cases h
    exact LowerStmts_stepOK (Scope.block sc) body s s2 ha
  · rw [if_neg hd] at h
    cases h

theorem LowerFuncDecl_spec (sc : Scope) (d : FuncDecl) (s s2 : CG)
    (h : LowerFuncDecl sc d s = .ok s2) :
    StepOK (scopeFuncLabels sc) s s2
    ∧ (∀ entry, lookupK s.funcs d.name = some entry → isPlacedL s2 entry) := by
  unfold LowerFuncDecl at h
  cases hq : lookupK s.funcs d.name with
  | none => rw [hq] at h; cases h
  | some entry =>
    rw [hq] at h
    dsimp only at h
    by_cases hd : (EmitLabel entry s).depth = 0
    · rw [if_pos hd] at h
      obtain ⟨sa, ha, h⟩ := except_bind_ok _ _ _ h
      by_cases hd2 : sa.depth = 0
      · rw [if_pos hd2] at h
        cases h
        have k1 : StepOK (scopeFuncLabels sc) s (EmitLabel entry s) :=
          stepOK_emitLabel _ entry s
        have k2 : StepOK (scopeFuncLabels sc) (EmitLabel entry s)
            { EmitLabel entry s with curArgs := d.args.length } :=
          stepOK_of_eq _ _ _ rfl rfl rfl rfl
        have k3 : StepOK (scopeFuncLabels sc)
            { EmitLabel entry s with curArgs := d.args.length } sa :=
          LowerBlockStmt_stepOK
            (Scope.func (List.foldl (fun m p => insertArgName m p.1) [] d.args) sc)
            d.body _ sa ha
        have k4 : StepOK (scopeFuncLabels sc) sa { sa with curArgs := 0 } :=
          stepOK_of_eq _ _ _ rfl rfl rfl rfl
        have hall := stepOK_trans _ _ _ _ k1
          (stepOK_trans _ _ _ _ k2 (stepOK_trans _ _ _ _ k3 k4))
        refine ⟨hall, fun e2 he2 => ?_⟩
        cases he2
        have hplaced : isPlacedL (EmitLabel entry s) entry := isPlaced_emitLabel _ _
        exact isPlaced_keeps _ _ _ _
          (keeps_trans _ _ _ _ k2.1 (keeps_trans _ _ _ _ k3.1 k4.1)) hplaced
      · rw [if_neg hd2] at h
        cases h
    · rw [if_neg hd] at h
      cases h

theorem lowerTops_stepOK (sc : Scope) (m : List TopLevel) (s s2 : CG)
    (h : lowerTops sc m s = .ok s2) : StepOK (scopeFuncLabels sc) s s2 := by
  induction m generalizing s with
  | nil =>
    unfold lowerTops at h
    cases h
    exact stepOK_refl _ _
  | cons item rest ih =>
    cases item with
    | stmt st =>
      unfold lowerTops at h
      obtain ⟨sa, ha, h⟩ := except_bind_ok _ _ _ h
      exact stepOK_trans _ _ _ _ (LowerStmt_stepOK sc st s sa ha) (ih sa h)
    | func f =>
      unfold lowerTops at h
      exact ih s h
    | proto p =>
      unfold lowerTops at h
      exact ih s h

theorem lowerFuncs_spec (sc : Scope) (m : List TopLevel) (s s2 : CG)
    (h : lowerFuncs sc m s = .ok s2) :
    StepOK (scopeFuncLabels sc) s s2
    ∧ (∀ n entry, lookupK s.funcs n = some entry →
        (∃ f : FuncDecl, TopLevel.func f ∈ m ∧ f.name = n) → isPlacedL s2 entry) := by
  induction m generalizing s with
  | nil =>
    unfold lowerFuncs at h
    cases h
    refine ⟨stepOK_refl _ _, fun n entry hl hw => ?_⟩
    obtain ⟨f, hf, _⟩ := hw
    cases hf
  | cons item rest ih =>
    cases item with
    | func f =>
      unfold lowerFuncs at h
      obtain ⟨sa, ha, h⟩ := except_bind_ok _ _ _ h
      obtain ⟨k1, hplace1⟩ := LowerFuncDecl_spec sc f s sa ha
      obtain ⟨k2, hplace2⟩ := ih sa h
      refine ⟨stepOK_trans _ _ _ _ k1 k2, fun n entry hl hw => ?_⟩
      obtain ⟨g, hg, hgname⟩ := hw
      rcases List.mem_cons.mp hg with hg2 | hg2
      · have hgf : g = f := by cases hg2; rfl
        subst hgf
        subst hgname
        exact isPlaced_keeps _ _ _ _ k2.1 (hplace1 entry hl)
      · refine hplace2 n entry ?_ ⟨g, hg2, hgname⟩
        rw [k1.1.1]
        exact hl
    | proto p =>
      unfold lowerFuncs at h
      obtain ⟨k2, hplace2⟩ := ih s h
      refine ⟨k2, fun n entry hl hw => ?_⟩
      obtain ⟨g, hg, hgname⟩ := hw
      rcases List.mem_cons.mp hg with hg2 | hg2
      · cases hg2
      · exact hplace2 n entry hl ⟨g, hg2, hgname⟩
    | stmt st =>
      unfold lowerFuncs at h
      obtain ⟨k2, hplace2⟩ := ih s h
      refine ⟨k2, fun n entry hl hw => ?_⟩
      obtain ⟨g, hg, hgname⟩ := hw
      rcases List.mem_cons.mp hg with hg2 | hg2
      · cases hg2
      · exact hplace2 n entry hl ⟨g, hg2, hgname⟩

theorem scanItems_spec (m : List TopLevel) (s : CG) (pr : List (String × Nat))
    (s2 : CG) (pr2 : List (String × Nat))
    (h : scanItems m s pr = .ok (s2, pr2)) :
    s2.code = s.code ∧ s2.fixups = s.fixups ∧ s2.labelToAddress = s.labelToAddress
    ∧ (∀ p ∈ s2.funcs, p ∈ s.funcs ∨ ∃ f : FuncDecl, TopLevel.func f ∈ m ∧ f.name = p.1)
    ∧ ((s.funcs.map Prod.fst).Nodup → (s2.funcs.map Prod.fst).Nodup) := by
  induction m generalizing s pr with
  | nil =>
    unfold scanItems at h
    cases h
    exact ⟨rfl, rfl, rfl, fun p hp => Or.inl hp, fun hn => hn⟩
  | cons item rest ih =>
    cases item with
    | proto p =>
      unfold scanItems at h
      cases hk : lookupK kRuntimeFns p.primitive with
      | none => rw [hk] at h; cases h
      | some fn =>
        rw [hk] at h
        obtain ⟨h1, h2, h3, h4, h5⟩ := ih s (emplaceK pr p.name fn) h
        refine ⟨h1, h2, h3, fun q hq => ?_, h5⟩
        rcases h4 q hq with hq2 | ⟨f, hf, hfn⟩
        · exact Or.inl hq2
        · exact Or.inr ⟨f, List.mem_cons_of_mem _ hf, hfn⟩
    | func f =>
      unfold scanItems at h
      simp only [MakeLabel] at h
      obtain ⟨h1, h2, h3, h4, h5⟩ := ih _ pr h
      refine ⟨h1, h2, h3, fun q hq => ?_, fun hn => h5 (keys_emplaceK_nodup _ _ _ hn)⟩
      rcases h4 q hq with hq2 | ⟨g, hg, hgn⟩
      · rcases mem_emplaceK _ _ _ _ hq2 with hq3 | hq3
        · exact Or.inl hq3
        · subst hq3
          exact Or.inr ⟨f, List.mem_cons_self _ _, rfl⟩
      · exact Or.inr ⟨g, List.mem_cons_of_mem _ hg, hgn⟩
    | stmt st =>
      unfold scanItems at h
      obtain ⟨h1, h2, h3, h4, h5⟩ := ih s pr h
      refine ⟨h1, h2, h3, fun q hq => ?_, h5⟩
      rcases h4 q hq with hq2 | ⟨g, hg, hgn⟩
      · exact Or.inl hq2
      · exact Or.inr ⟨g, List.mem_cons_of_mem _ hg, hgn⟩

/-!  Reading back patched placeholders, and the end-of-translation
invariant. -/

theorem bytesAt_split (c : List Nat) (o m n : Nat) :
    bytesAt c o (m + n) = bytesAt c o m ++ bytesAt c (o + m) n := by
  unfold bytesAt
  rw [List.range_add, List.map_append, List.map_map]
  congr 1
  apply List.map_congr_left
  intro k hk
  simp only [Function.comp]
  congr 1
  omega

theorem patchAll_reads (locs : List Nat) (c : List Nat)
    (fx : List (Nat × List Nat)) (a : Nat)
    (h : GOODcf c fx) (hsub : ∀ o ∈ locs, ∃ q ∈ fx, o ∈ q.2) (ha : a ≤ c.length) :
    (∀ o ∈ locs,
      bytesAt (locs.foldl (fun cc o2 => writeBytes cc o2 (encLE 4 a)) c) o 4
        = encLE 4 a
      ∧ bytesAt (locs.foldl (fun cc o2 => writeBytes cc o2 (encLE 4 a)) c) (o + 4) 4
        = bytesAt c (o + 4) 4)
    ∧ (∀ o2 n, (∀ o ∈ locs, o2 + n ≤ o ∨ o + 4 ≤ o2) →
        bytesAt (locs.foldl (fun cc o3 => writeBytes cc o3 (encLE 4 a)) c) o2 n
          = bytesAt c o2 n) := by
  induction locs generalizing c with
  | nil => exact ⟨fun o ho => absurd ho (List.not_mem_nil o), fun o2 n _ => rfl⟩
  | cons o0 rest ih =>
    have hm0 := hsub o0 (List.mem_cons_self _ _)
    obtain ⟨q0, hq0, ho0⟩ := hm0
    have hbound0 : o0 + 8 ≤ c.length := (h.1 q0 hq0 o0 ho0).1
    obtain ⟨hg1, hlen1⟩ := goodcf_patch_one c fx o0 a h ⟨q0, hq0, ho0⟩ ha
    have hsub1 : ∀ o ∈ rest, ∃ q ∈ fx, o ∈ q.2 :=
      fun o ho => hsub o (List.mem_cons_of_mem _ ho)
    have ha1 : a ≤ (writeBytes c o0 (encLE 4 a)).length := by omega
    obtain ⟨ih1, ih2⟩ := ih (writeBytes c o0 (encLE 4 a)) hg1 hsub1 ha1
    have hdisj : ∀ o ∈ rest, o = o0 ∨ o0 + 8 ≤ o ∨ o + 8 ≤ o0 := by
      intro o ho
      obtain ⟨q, hq, hoq⟩ := hsub1 o ho
      rcases h.2.1 q hq o hoq q0 hq0 o0 ho0 with h3 | h3 | h3
      · exact Or.inl h3
      · exact Or.inr (Or.inr h3)
      · exact Or.inr (Or.inl h3)
    have hwself : bytesAt (writeBytes c o0 (encLE 4 a)) o0 4 = encLE 4 a := by
      have := bytesAt_writeBytes_self (encLE 4 a) c o0
        (by rw [length_encLE]; omega)
      rwa [length_encLE] at this
    have hwup : bytesAt (writeBytes c o0 (encLE 4 a)) (o0 + 4) 4
        = bytesAt c (o0 + 4) 4 :=
      bytesAt_writeBytes_out _ _ _ 0 _ _ (Or.inr (by rw [length_encLE]))
    simp only [List.foldl_cons]
    refine ⟨?_, ?_⟩
    · intro o ho
      rcases List.mem_cons.mp ho with rfl | ho2
      · by_cases hor : o ∈ rest
        · obtain ⟨hA, hB⟩ := ih1 o hor
          exact ⟨hA, by rw [hB, hwup]⟩
        · have hd : ∀ o3 ∈ rest, o + 4 ≤ o3 ∨ o3 + 4 ≤ o := by
            intro o3 ho3
            rcases hdisj o3 ho3 with h4 | h4 | h4
            · exact absurd (h4 ▸ ho3) hor
            · exact Or.inl (by omega)
            · exact Or.inr (by omega)
          have hd2 : ∀ o3 ∈ rest, (o + 4) + 4 ≤ o3 ∨ o3 + 4 ≤ o + 4 := by
            intro o3 ho3
            rcases hdisj o3 ho3 with h4 | h4 | h4
            · exact absurd (h4 ▸ ho3) hor
            · exact Or.inl (by omega)
            · exact Or.inr (by omega)
          exact ⟨by rw [ih2 o 4 hd, hwself], by rw [ih2 (o + 4) 4 hd2, hwup]⟩
      · obtain ⟨hA, hB⟩ := ih1 o ho2
        have hupold : bytesAt (writeBytes c o0 (encLE 4 a)) (o + 4) 4
            = bytesAt c (o + 4) 4 := by
          rcases hdisj o ho2 with h4 | h4 | h4
          · subst h4
            exact hwup
          · exact bytesAt_writeBytes_out _ _ _ 0 _ _
              (Or.inr (by rw [length_encLE]; omega))
          · exact bytesAt_writeBytes_out _ _ _ 0 _ _
              (Or.inl (by omega))
        exact ⟨hA, by rw [hB, hupold]⟩
    · intro o2 n hdisj2
      have h0 := hdisj2 o0 (List.mem_cons_self _ _)
      rw [ih2 o2 n (fun o ho => hdisj2 o (List.mem_cons_of_mem _ ho))]
      exact bytesAt_writeBytes_out _ _ _ 0 _ _
        (by rw [length_encLE]; rcases h0 with h4 | h4
            · exact Or.inl h4
            · exact Or.inr h4)

theorem emitLabel_patch_spec (L : Nat) (s : CG) (hg : GOOD s) :
    (EmitLabel L s).fixups = setK s.fixups L (getOr s.fixups L)
    ∧ getOr (EmitLabel L s).fixups L = getOr s.fixups L
    ∧ isPlacedL (EmitLabel L s) L
    ∧ ∀ o ∈ getOr s.fixups L,
        bytesAt (EmitLabel L s).code o 4 = encLE 4 s.code.length
        ∧ bytesAt (EmitLabel L s).code (o + 4) 4 = bytesAt s.code (o + 4) 4 := by
  refine ⟨rfl, getOr_setK_self _ _ _, isPlaced_emitLabel _ _, ?_⟩
  have hsub : ∀ o ∈ getOr s.fixups L, ∃ q ∈ s.fixups, o ∈ q.2 :=
    fun o ho => ⟨(L, getOr s.fixups L),
      getOr_mem _ _ (fun hemp => by rw [hemp] at ho; cases ho), ho⟩
  obtain ⟨h1, h2⟩ := patchAll_reads (getOr s.fixups L) s.code s.fixups
    s.code.length hg hsub (le_refl _)
  exact h1

theorem translate_spec (m : Module) (s : CG) (h : translate m = .ok s) :
    GOOD s ∧ ∀ L, ¬ pendL s L := by
  unfold translate at h
  obtain ⟨a, hscan, h⟩ := except_bind_ok _ _ _ h
  obtain ⟨s1, protos⟩ := a
  obtain ⟨s2, htops, h⟩ := except_bind_ok _ _ _ h
  obtain ⟨hc1, hf1, hl1, hfmem, hnodup⟩ := scanItems_spec m initCG [] s1 protos hscan
  have hgood1 : GOOD s1 := by
    unfold GOOD GOODcf
    rw [hf1]
    exact ⟨fun p hp => absurd hp (List.not_mem_nil p),
      fun p hp => absurd hp (List.not_mem_nil p), by simp [initCG]⟩
  have hnodup1 : (s1.funcs.map Prod.fst).Nodup := hnodup (by simp [initCG])
  have hpend1 : ∀ L, ¬ pendL s1 L := by
    intro L hp
    have : getOr s1.fixups L = [] := by rw [hf1]; rfl
    exact hp.1 this
  have k1 := lowerTops_stepOK (Scope.global s1.funcs protos) m s1 s2 htops
  have k2 : StepOK (scopeFuncLabels (Scope.global s1.funcs protos)) s2
      { s2 with code := s2.code ++ [Opcode.stop.toByte] } :=
    stepOK_of_append _ _ _ [Opcode.stop.toByte] rfl rfl rfl rfl
  obtain ⟨k3, hplace⟩ := lowerFuncs_spec (Scope.global s1.funcs protos) m
    { s2 with code := s2.code ++ [Opcode.stop.toByte] } s h
  have kall := stepOK_trans _ _ _ _ k1 (stepOK_trans _ _ _ _ k2 k3)
  refine ⟨kall.2 hgood1, fun L hp => ?_⟩
  rcases kall.1.2.2 L hp with h3 | h3
  · exact hpend1 L h3
  · obtain ⟨p, hpmem, hpsnd⟩ := List.mem_map.mp h3
    rcases hfmem p hpmem with h4 | ⟨f, hf, hfn⟩
    · simp [initCG] at h4
    · have hlook : lookupK s1.funcs p.1 = some p.2 :=
        lookupK_of_mem_nodup _ _ _ (by cases p; exact hpmem) hnodup1
      have hlook3 : lookupK ({ s2 with
          code := s2.code ++ [Opcode.stop.toByte] } : CG).funcs p.1 = some p.2 := by
        rw [show ({ s2 with code := s2.code ++ [Opcode.stop.toByte] } : CG).funcs
            = s2.funcs from rfl, k1.1.1]
        exact hlook
      have hplaced := hplace p.1 p.2 hlook3 ⟨f, hf, hfn⟩
      rw [hpsnd] at hplaced
      exact not_pend_of_placed _ _ hplaced hp

/-!  The claims. -/

set_option maxRecDepth 100000

/-- C1: Scenario A — the translated bytecode of a two-argument addition
function, a native output primitive and the single top-level statement
`output(add(2, 3))` (constants delivered through the native read
primitive, input `[3, 2]`, so `add` computes `2 + 3`).  Running it makes
the output primitive observe the integer 5 exactly once and the VM
terminates via the stop instruction — but the residual operand stack holds
one leftover value, the integer 5, rather than being empty: `PrintInt`
peeks its argument and pushes the result without consuming the argument,
while the generator's accounting assumes one consumed slot, so the
expression statement's pop leaves one value behind. -/
theorem c1_scenarioA_outcome :
    runProg scnA 50 [3, 2]
      = some (.halted ⟨42, [Value.int 5], [], [5]⟩) := by decide

/-- C2: the generator's static depth counter disagrees with the VM's
runtime operand-stack height at a native-primitive call boundary.  In
Scenario A, after the declaration pre-scan (state `s1A`, global scope
`gsA`), lowering the top-level call expression leaves the static depth
counter at 1; at run time, the instruction executed by step 12 is the call
at offset 39 (the call to the native output primitive), and immediately
after it completes the stack holds 2 values (and the output `5` has been
emitted): the native routine pushed a result without popping its
argument. -/
theorem c2_static_runtime_mismatch :
    (scanItems scnA initCG []).toOption = some (s1A, [("output", 0), ("input", 1)])
    ∧ Scope.global s1A.funcs [("output", 0), ("input", 1)] = gsA
    ∧ (LowerExpr gsA outCallA s1A).toOption.map CG.depth = some 1
    ∧ (stepN codeA 11 vm0A).pc = 39
    ∧ bytesAt codeA 39 1 = [Opcode.call.toByte]
    ∧ (stepN codeA 12 vm0A).stack.length = 2
    ∧ (stepN codeA 12 vm0A).out = [5] := by
  refine ⟨by decide, by decide, by decide, by decide, by decide, by decide, by decide⟩

/-- C4 (counterexample): for the program `cex4M` — a function whose body
ends in a while loop — translation places the loop's exit label at the
container's very end: the patched placeholder at offset 12 holds 29, which
equals the container's size and is therefore not an offset within its
bounds. -/
theorem c4_boundary_offset_cex :
    translate cex4M = .ok cg4
    ∧ getOr cg4.fixups 3 = [12]
    ∧ readN cg4.code 12 8 = some 29
    ∧ cg4.code.length = 29
    ∧ ¬ (29 < 29) :=
  ⟨by rfl, by decide, by decide, by decide, by decide⟩

/-- C4 (amended): for every program, after translation completes, every
recorded placeholder offset is in bounds, its 8-byte operand decodes to a
concrete offset that is at most the size of the final container (it can
equal the size when a loop-exit label is placed at the very end of the
stream), and the placeholder's label has been resolved to an address — no
fixup remains dangling. -/
theorem c4_placeholders_patched (m : Module) (s : CG)
    (h : translate m = .ok s) :
    ∀ p ∈ s.fixups, ∀ o ∈ p.2,
      o + 8 ≤ s.code.length
      ∧ decLE (bytesAt s.code o 8) ≤ s.code.length
      ∧ ∃ a, lookupK s.labelToAddress p.1 = some a := by
  obtain ⟨hg, hnp⟩ := translate_spec m s h
  intro p hp o ho
  obtain ⟨hg1, hg2, hg3⟩ := hg
  obtain ⟨hb, hz, hv⟩ := hg1 p hp o ho
  refine ⟨hb, ?_, ?_⟩
  · rw [show (8 : Nat) = 4 + 4 from rfl, bytesAt_split, decLE_append, hz]
    simpa [decLE] using hv
  · cases hl : lookupK s.labelToAddress p.1 with
    | some a => exact ⟨a, rfl⟩
    | none =>
      exfalso
      refine hnp p.1 ⟨?_, hl⟩
      rw [getOr_of_mem_nodup s.fixups p.1 p.2 (by cases p; exact hp) hg3]
      intro hemp
      rw [hemp] at ho
      cases ho

/-- C4 (witness): the amended statement evaluated on Scenario C's
translation, at its one recorded placeholder (label 1, offset 1). -/
theorem c4_placeholders_patched_witness :
    1 + 8 ≤ cgC.code.length
    ∧ decLE (bytesAt cgC.code 1 8) ≤ cgC.code.length
    ∧ ∃ a, lookupK cgC.labelToAddress 1 = some a :=
  c4_placeholders_patched scnC cgC (by rfl) (1, [1]) (by decide) 1 (by decide)

/-- C5 (counterexample): after translating Scenario C (a forward
reference to `f`), the fixup table still holds the entry for `f`'s label
(label 1, offsets `[1]`) even though that label has been placed at
address 12 — `EmitLabel` rewrites the recorded offsets but never clears
the table entry. -/
theorem c5_entry_not_cleared_cex :
    translate scnC = .ok cgC
    ∧ cgC.fixups = [(1, [1])]
    ∧ lookupK cgC.labelToAddress 1 = some 12
    ∧ getOr cgC.fixups 1 ≠ [] :=
  ⟨by rfl, by decide, by decide, by decide⟩

/-- C5 (amended): when a label is placed, all fixups previously recorded
for it are rewritten with the resolved address (in their low four bytes)
and the label is recorded as placed, but the label's entry in the fixup
table is retained, not cleared.  (No offset remains unpatched — that is
the amended C4 — but the table still holds the entry.) -/
theorem c5_emitLabel_rewrites_keeps_entry (L : Nat) (s : CG) (hg : GOOD s) :
    getOr (EmitLabel L s).fixups L = getOr s.fixups L
    ∧ isPlacedL (EmitLabel L s) L
    ∧ ∀ o ∈ getOr s.fixups L,
        bytesAt (EmitLabel L s).code o 4 = encLE 4 s.code.length := by
  obtain ⟨h1, h2, h3, h4⟩ := emitLabel_patch_spec L s hg
  exact ⟨h2, h3, fun o ho => (h4 o ho).1⟩

/-- C5 (witness): placing label 1 on Scenario C's pre-placement state
patches the recorded offset and keeps the fixup entry. -/
theorem c5_emitLabel_rewrites_keeps_entry_witness :
    getOr (EmitLabel 1 cgPreC).fixups 1 = getOr cgPreC.fixups 1
    ∧ isPlacedL (EmitLabel 1 cgPreC) 1
    ∧ ∀ o ∈ getOr cgPreC.fixups 1,
        bytesAt (EmitLabel 1 cgPreC).code o 4 = encLE 4 cgPreC.code.length :=
  c5_emitLabel_rewrites_keeps_entry 1 cgPreC (by decide)

/-- C6 (counterexample): `cex6M` adds two function addresses (the first
popped operand is already non-integer) and `cex6bM` adds a function
address to an integer read from input (the first popped operand is an
integer, the second is not); executing either translation fails the
`PopInt` debug assertion — an `assertFail`, not the thrown `RuntimeError`
class that calling an integer produces — so in neither operand position
is the failure of the same class as calling an integer. -/
theorem c6_add_assert_cex :
    runProg cex6M 50 []
      = some (.errored (.assertFail "not an integer") ⟨19, [Value.addr 21], [], []⟩)
    ∧ runProg cex6bM 50 [5]
      = some (.errored (.assertFail "not an integer") ⟨20, [], [], []⟩)
    ∧ (VMErr.assertFail "not an integer").isRuntime = false
    ∧ (VMErr.runtimeError "cannot call integer").isRuntime = true := by
  refine ⟨by decide, by decide, by decide, by decide⟩

/-- C3: call/return symmetry.  A user-defined function of arity `k` is
invoked through the call instruction with its `k` arguments on the stack:
the call pops the code-address callee, pushes the resumption address and
jumps.  When the matching return instruction executes — with the callee's
`k` arguments below the return address, `d` temporaries (the instruction's
embedded depth operand) and the result above it — the stack afterwards is
exactly the pre-argument stack plus the single result value: its height is
the height immediately before the arguments were pushed, plus one. -/
theorem c3_call_ret_symmetry
    (c : List Nat) (pcC pcR d k r fa : Nat) (v : Value)
    (temps args rest : List Value) (inp out : List Int)
    (hcall : readN c pcC 1 = some Opcode.call.toByte)
    (hret : readN c pcR 1 = some Opcode.ret.toByte)
    (hd : readN c (pcR + 1) 4 = some d)
    (hk : readN c (pcR + 1 + 4) 4 = some k)
    (htemps : temps.length = d) (hargs : args.length = k) :
    step c ⟨pcC, Value.addr fa :: (args ++ rest), inp, out⟩
      = .next ⟨fa, Value.addr (pcC + 1) :: (args ++ rest), inp, out⟩
    ∧ step c ⟨pcR, v :: (temps ++ Value.addr r :: (args ++ rest)), inp, out⟩
      = .next ⟨r, v :: rest, inp, out⟩
    ∧ (v :: rest).length = rest.length + 1 := by
  subst htemps
  subst hargs
  have hcall4 : readN c pcC 1 = some 4 := hcall
  have hret6 : readN c pcR 1 = some 6 := hret
  refine ⟨?_, ?_, rfl⟩
  · unfold step
    rw [show (⟨pcC, Value.addr fa :: (args ++ rest), inp, out⟩ : VM).pc = pcC from rfl,
      hcall4]
    rfl
  · unfold step
    rw [show (⟨pcR, v :: (temps ++ Value.addr r :: (args ++ rest)), inp, out⟩ : VM).pc
        = pcR from rfl, hret6]
    dsimp only [byteToOp]
    rw [hd, hk]
    dsimp only
    rw [if_pos (by simp), List.drop_left]
    dsimp only
    rw [if_pos (by simp), List.drop_left]

/-- C3 (witness): the `add(2, 3)` call/return pair of Scenario A — the
call at offset 29 enters `add` at 42 pushing the resumption address 30;
the return at offset 53 (depth 0, two parameters) unwinds to a stack
holding only the result 5. -/
theorem c3_call_ret_symmetry_witness :
    step codeA ⟨29, Value.addr 42 :: ([Value.int 2, Value.int 3] ++ []), [], []⟩
      = .next ⟨42, Value.addr (29 + 1) :: ([Value.int 2, Value.int 3] ++ []), [], []⟩
    ∧ step codeA ⟨53, Value.int 5 ::
          ([] ++ Value.addr 30 :: ([Value.int 2, Value.int 3] ++ [])), [], []⟩
      = .next ⟨30, [Value.int 5], [], []⟩
    ∧ ([Value.int 5] : List Value).length = ([] : List Value).length + 1 :=
  c3_call_ret_symmetry codeA 29 53 0 2 30 42 (Value.int 5)
    [] [Value.int 2, Value.int 3] [] [] []
    (by decide) (by decide) (by decide) (by decide) rfl rfl

/-- C6 (amended): when the add instruction is executed and either of the
two popped operands is not an integer, the VM fails the `PopInt` debug
assertion — an `assertFail`, which is not the thrown `RuntimeError` class
used for calling an integer (in a release build the check would vanish
entirely), rather than raising the same runtime type error class.  The
first conjunct covers a non-integer first popped (top) operand, with the
second operand still on the stack when the assert fires; the second
conjunct covers an integer first popped operand with a non-integer second
popped operand, both already removed by their `Pop()` calls when the
assert fires. -/
theorem c6_add_non_integer_asserts
    (c : List Nat) (pcA : Nat) (v w : Value) (i : Int) (rest : List Value)
    (inp out : List Int)
    (ha : readN c pcA 1 = some Opcode.add.toByte) :
    (v.isInt = false →
      step c ⟨pcA, v :: w :: rest, inp, out⟩
        = .fault (.assertFail "not an integer") ⟨pcA + 1, w :: rest, inp, out⟩)
    ∧ (w.isInt = false →
      step c ⟨pcA, Value.int i :: w :: rest, inp, out⟩
        = .fault (.assertFail "not an integer") ⟨pcA + 1, rest, inp, out⟩)
    ∧ (VMErr.assertFail "not an integer").isRuntime = false := by
  have ha5 : readN c pcA 1 = some 5 := ha
  refine ⟨fun hv => ?_, fun hw => ?_, rfl⟩
  · cases v with
    | int j => simp [Value.isInt] at hv
    | proto fn =>
      unfold step
      rw [show (⟨pcA, Value.proto fn :: w :: rest, inp, out⟩ : VM).pc = pcA from rfl,
        ha5]
      rfl
    | addr a =>
      unfold step
      rw [show (⟨pcA, Value.addr a :: w :: rest, inp, out⟩ : VM).pc = pcA from rfl,
        ha5]
      rfl
  · cases w with
    | int j => simp [Value.isInt] at hw
    | proto fn =>
      unfold step
      rw [show (⟨pcA, Value.int i :: Value.proto fn :: rest, inp, out⟩ : VM).pc
          = pcA from rfl, ha5]
      rfl
    | addr a =>
      unfold step
      rw [show (⟨pcA, Value.int i :: Value.addr a :: rest, inp, out⟩ : VM).pc
          = pcA from rfl, ha5]
      rfl

/-- C6 (amended, witness): the add of `cex6bM` at offset 19.  The second
conjunct is the state its execution actually reaches — the integer 5 read
from input over the address of `f` — where the second `PopInt` asserts;
the first conjunct is the same instruction with a function address on
top, where the first `PopInt` asserts. -/
theorem c6_add_non_integer_asserts_witness :
    step codeC6b ⟨19, Value.addr 22 :: Value.addr 22 :: [], [], []⟩
      = .fault (.assertFail "not an integer") ⟨19 + 1, Value.addr 22 :: [], [], []⟩
    ∧ step codeC6b ⟨19, Value.int 5 :: Value.addr 22 :: [], [], []⟩
      = .fault (.assertFail "not an integer") ⟨19 + 1, [], [], []⟩
    ∧ (VMErr.assertFail "not an integer").isRuntime = false :=
  have h := c6_add_non_integer_asserts codeC6b 19 (Value.addr 22) (Value.addr 22) 5
    [] [] [] (by decide)
  ⟨h.1 (by decide), h.2.1 (by decide), h.2.2⟩

/-- C7: when the call instruction pops a plain integer, the VM throws the
runtime type error `"cannot call integer"`; the error unwinds out of the
execution loop (`run` returns it immediately), and the output channel is
exactly what it was before the failing instruction — no further native
output is performed. -/
theorem c7_call_integer_unwinds
    (c : List Nat) (pcC : Nat) (i : Int) (rest : List Value)
    (inp out : List Int) (fuel : Nat)
    (hc : readN c pcC 1 = some Opcode.call.toByte) :
    step c ⟨pcC, Value.int i :: rest, inp, out⟩
      = .fault (.runtimeError "cannot call integer") ⟨pcC + 1, rest, inp, out⟩
    ∧ run c (fuel + 1) ⟨pcC, Value.int i :: rest, inp, out⟩
      = some (.errored (.runtimeError "cannot call integer") ⟨pcC + 1, rest, inp, out⟩) := by
  have hc4 : readN c pcC 1 = some 4 := hc
  have hstep : step c ⟨pcC, Value.int i :: rest, inp, out⟩
      = .fault (.runtimeError "cannot call integer") ⟨pcC + 1, rest, inp, out⟩ := by
    unfold step
    rw [show (⟨pcC, Value.int i :: rest, inp, out⟩ : VM).pc = pcC from rfl, hc4]
    rfl
  refine ⟨hstep, ?_⟩
  rw [run, hstep]

/-- C7 (witness): the failing call of Scenario D (`cex7M`) at offset 31:
the callee is the integer 5 just read from input, the output so far is
`[7]` (from the first statement), and execution ends with the thrown
runtime error and output still `[7]`. -/
theorem c7_call_integer_unwinds_witness :
    step codeC7 ⟨31, Value.int 5 :: [Value.int 7], [9], [7]⟩
      = .fault (.runtimeError "cannot call integer") ⟨31 + 1, [Value.int 7], [9], [7]⟩
    ∧ run codeC7 (10 + 1) ⟨31, Value.int 5 :: [Value.int 7], [9], [7]⟩
      = some (.errored (.runtimeError "cannot call integer")
          ⟨31 + 1, [Value.int 7], [9], [7]⟩) :=
  c7_call_integer_unwinds codeC7 31 5 [Value.int 7] [9] [7] 10 (by decide)

/-- C8: boolean coercion — the integer 0 coerces to false; every nonzero
integer, every code-address and every native identity coerces to true —
and the conditional-branch-if-false instruction pops one value of any
kind and sets the program counter to its target exactly when the coercion
yields false (falling through past its 8-byte operand otherwise), without
raising any error. -/
theorem c8_bool_coercion_jump_false
    (c : List Nat) (pcJ t : Nat) (v : Value) (rest : List Value) (inp out : List Int)
    (hj : readN c pcJ 1 = some Opcode.jump_false.toByte)
    (ht : readN c (pcJ + 1) 8 = some t) :
    Value.toBool (.int 0) = false
    ∧ (∀ i : Int, i ≠ 0 → Value.toBool (.int i) = true)
    ∧ (∀ a : Nat, Value.toBool (.addr a) = true)
    ∧ (∀ fn : Nat, Value.toBool (.proto fn) = true)
    ∧ step c ⟨pcJ, v :: rest, inp, out⟩
        = .next ⟨if v.toBool then pcJ + 1 + 8 else t, rest, inp, out⟩ := by
  have hj7 : readN c pcJ 1 = some 7 := hj
  refine ⟨rfl, fun i hi => by simp [Value.toBool, hi], fun a => rfl, fun fn => rfl, ?_⟩
  unfold step
  rw [show (⟨pcJ, v :: rest, inp, out⟩ : VM).pc = pcJ from rfl, hj7]
  dsimp only [byteToOp]
  rw [ht]

/-- C8 (witness): the loop exit of `cex4M` — the branch at offset 11 with
target 29, taken on the falsy integer 0. -/
theorem c8_bool_coercion_jump_false_witness :
    Value.toBool (.int 0) = false
    ∧ (∀ i : Int, i ≠ 0 → Value.toBool (.int i) = true)
    ∧ (∀ a : Nat, Value.toBool (.addr a) = true)
    ∧ (∀ fn : Nat, Value.toBool (.proto fn) = true)
    ∧ step cg4.code ⟨11, Value.int 0 :: [], [], []⟩
        = .next ⟨if (Value.int 0).toBool then 11 + 1 + 8 else 29, [], [], []⟩ :=
  c8_bool_coercion_jump_false cg4.code 11 29 (Value.int 0) [] [] []
    (by decide) (by decide)

/-- C9: a reference that resolves to argument slot `i` at static depth `d`
is lowered to a peek instruction with operand `d + i + 1` (the generator's
depth plus the slot index plus one, skipping the return address), and
executing that peek on a frame with `d` temporaries above the return
address pushes a copy — without removing anything — of the function's
original `i`-th argument. -/
theorem c9_arg_ref_peek
    (sc : Scope) (name : String) (i : Nat) (s : CG)
    (hlook : sc.lookup name = .ok (.arg i))
    (c : List Nat) (pcP d r : Nat) (a : Value)
    (temps args rest : List Value) (inp out : List Int)
    (hp : readN c pcP 1 = some Opcode.peek.toByte)
    (hi : readN c (pcP + 1) 4 = some (d + i + 1))
    (htemps : temps.length = d) (hargs : args[i]? = some a) :
    LowerExpr sc (.ref name) s
      = .ok { s with
          depth := s.depth + 1,
          code := s.code ++ [Opcode.peek.toByte] ++ encLE 4 (s.depth + i + 1) }
    ∧ step c ⟨pcP, temps ++ Value.addr r :: (args ++ rest), inp, out⟩
        = .next ⟨pcP + 1 + 4,
            a :: (temps ++ Value.addr r :: (args ++ rest)), inp, out⟩ := by
  subst htemps
  have hp2 : readN c pcP 1 = some 2 := hp
  obtain ⟨hlt, -⟩ := List.getElem?_eq_some.mp hargs
  constructor
  · unfold LowerExpr
    rw [hlook]
    rfl
  · have hget : (temps ++ Value.addr r :: (args ++ rest)).get?
        (temps.length + i + 1) = some a := by
      rw [List.get?_eq_getElem?, List.getElem?_append_right (by omega)]
      have h1 : temps.length + i + 1 - temps.length = i + 1 := by omega
      rw [h1, List.getElem?_cons_succ, List.getElem?_append_left hlt]
      exact hargs
    unfold step
    rw [show (⟨pcP, temps ++ Value.addr r :: (args ++ rest), inp, out⟩ : VM).pc
        = pcP from rfl, hp2]
    dsimp only [byteToOp]
    rw [hi]
    dsimp only
    rw [hget]

/-- C9 (witness): the reference to parameter `a` in Scenario A's `add`:
slot 0 at depth 0 lowers to a peek with operand 1; at run time (offset 42,
frame `[return-address 30, 2, 3]`) it pushes a copy of the original first
argument 2. -/
theorem c9_arg_ref_peek_witness :
    LowerExpr fscA (.ref "a") initCG
      = .ok { initCG with
          depth := initCG.depth + 1,
          code := initCG.code ++ [Opcode.peek.toByte]
            ++ encLE 4 (initCG.depth + 0 + 1) }
    ∧ step codeA ⟨42, [] ++ Value.addr 30 :: ([Value.int 2, Value.int 3] ++ []), [], []⟩
        = .next ⟨42 + 1 + 4,
            Value.int 2 :: ([] ++ Value.addr 30 :: ([Value.int 2, Value.int 3] ++ [])),
            [], []⟩ :=
  c9_arg_ref_peek fscA "a" 0 initCG (by rfl) codeA 42 0 30 (Value.int 2)
    [] [Value.int 2, Value.int 3] [] [] []
    (by decide) (by decide) rfl (by decide)

/-- C10: address operands are emitted as 8-byte zero placeholders
(`EmitFixup` on an unplaced label), placing a label patches only the 4
low-order bytes of each pending placeholder and stores the resolved
address in the 32-bit (`unsigned`) map; consequently, for a label placed
at a container offset below 2^32, the 8-byte operand subsequently read by
the VM equals that offset exactly, because the placeholder's remaining
four bytes were zero. -/
theorem c10_placeholder_width (s : CG) (L o : Nat) (hg : GOOD s)
    (ho : o ∈ getOr s.fixups L) (hlen : s.code.length < 4294967296) :
    (lookupK s.labelToAddress L = none →
      EmitFixup L s = { s with
        fixups := setK s.fixups L (getOr s.fixups L ++ [s.code.length]),
        code := s.code ++ [0, 0, 0, 0, 0, 0, 0, 0] })
    ∧ (EmitLabel L s).labelToAddress
        = emplaceK s.labelToAddress L (s.code.length % 4294967296)
    ∧ bytesAt (EmitLabel L s).code o 4 = encLE 4 s.code.length
    ∧ bytesAt (EmitLabel L s).code (o + 4) 4 = bytesAt s.code (o + 4) 4
    ∧ readN (EmitLabel L s).code o 8 = some s.code.length := by
  have hne : getOr s.fixups L ≠ [] := fun hemp => by rw [hemp] at ho; cases ho
  have hmem : (L, getOr s.fixups L) ∈ s.fixups := getOr_mem _ _ hne
  obtain ⟨hb, hz, hv⟩ := hg.1 (L, getOr s.fixups L) hmem o ho
  obtain ⟨_, _, _, hpatch⟩ := emitLabel_patch_spec L s hg
  obtain ⟨hlow, hup⟩ := hpatch o ho
  have hlength : (EmitLabel L s).code.length = s.code.length :=
    emitLabel_code_length L s hg
  refine ⟨?_, rfl, hlow, hup, ?_⟩
  · intro hnone
    unfold EmitFixup
    rw [hnone]
    rfl
  · unfold readN
    rw [if_pos (by omega)]
    rw [show (8 : Nat) = 4 + 4 from rfl, bytesAt_split, decLE_append, hlow, hup, hz]
    rw [decLE_encLE, length_encLE]
    rw [show decLE [0, 0, 0, 0] = 0 from rfl]
    rw [Nat.mod_eq_of_lt (by omega)]
    simp

/-- C10 (witness): placing Scenario C's function label on the
pre-placement state `cgPreC` (placeholder at offset 1, container size 12):
the low four bytes become 12, the high four stay zero, and the VM reads
back exactly 12. -/
theorem c10_placeholder_width_witness :
    (lookupK cgPreC.labelToAddress 1 = none →
      EmitFixup 1 cgPreC = { cgPreC with
        fixups := setK cgPreC.fixups 1 (getOr cgPreC.fixups 1 ++ [cgPreC.code.length]),
        code := cgPreC.code ++ [0, 0, 0, 0, 0, 0, 0, 0] })
    ∧ (EmitLabel 1 cgPreC).labelToAddress
        = emplaceK cgPreC.labelToAddress 1 (cgPreC.code.length % 4294967296)
    ∧ bytesAt (EmitLabel 1 cgPreC).code 1 4 = encLE 4 cgPreC.code.length
    ∧ bytesAt (EmitLabel 1 cgPreC).code (1 + 4) 4 = bytesAt cgPreC.code (1 + 4) 4
    ∧ readN (EmitLabel 1 cgPreC).code 1 8 = some cgPreC.code.length :=
  c10_placeholder_width cgPreC 1 1 (by decide) (by decide) (by decide)

end Imp
